import Mathlib

/-! # CNTK `HalideDNNLib.h`: blocked reductions and the quantization pipeline

A shallow embedding of `bindings/python/cntk/contrib/codegen/HalideDNNLib.h`.

* A `Halide::Func` of one (two) integer coordinates is a function `Int → α`
  (`Int → Int → α`): the value the pipeline defines at each coordinate.
* A `Halide::RDom(min, extent)` is the list of its indices in iteration order.
* `Halide::sum`, `Halide::minimum`, `Halide::maximum` are the left folds that Halide's
  inline reductions perform over the reduction domain.
* Dimensions (`matrixRowDimension`, `vectorRowDimension`, ...) are C++ `int`s that are
  used as extents of reduction domains; they are non-negative and are modelled in `Nat`,
  where `/` and `%` agree with the C++ operators.
* Values of the wide type are rational numbers: comparisons, `min` and `max` are exact
  on them. The definitions named after the Funcs (`Quantize.absMax`, `Quantize.qStep`,
  `Quantize.inverseQStep`, `Quantize.quantizedInt32`, ...) evaluate `+ - * /` exactly.
  The definitions `Quantize.absMaxRounded`, `Quantize.inverseQStepRounded` and
  `Quantize.quantizedInt32Rounded` apply a rounding `fl` after every conversion and
  operation of the wide type; `roundFloat32` is the rounding of IEEE binary32 (`float`).
* Values of integer types are integers; casts to a type of `w` bits wrap around
  (`wrapSigned`), and the 32-bit accumulation of `VectorByMatrixTimesQuantized` is
  arithmetic modulo `2^32`.
* A Func whose definition divides by a value that may be zero is `Option`-valued.
-/

namespace CNTK

/-! ## Reduction domains and inline reductions -/

/-- The constant `c_VectorizationWidth` of the source. -/
def c_VectorizationWidth : Nat := 4

/-- The indices of `Halide::RDom(min, extent)`: `min, min + 1, ..., min + extent - 1`. -/
def rdom (min : Int) (extent : Nat) : List Int :=
  (List.range extent).map (fun (i : Nat) => min + (i : Int))

/-- The inline reduction `Halide::sum(e(k))` over the reduction domain `dom`:
the accumulator starts at `0` and every index adds its term. -/
def hsum {α : Type} [Add α] [Zero α] (dom : List Int) (e : Int → α) : α :=
  dom.foldl (fun acc k => acc + e k) 0

/-! ## The index sets of the blocked reduction -/

/-- The indices read by the head of the blocked reduction with lane width `W` over a
domain of `N` elements: for every lane `0 ≤ lane < W` (outer) and every full block
`0 ≤ k1 < N / W` (inner), the index `lane + k1 * W`. -/
def headIndices (W N : Nat) : List Int :=
  (rdom 0 W).flatMap (fun lane => (rdom 0 (N / W)).map (fun k1 => lane + k1 * (W : Int)))

/-- The indices read by the tail: `RDom((N / W) * W, N % W)`. -/
def tailIndices (W N : Nat) : List Int :=
  rdom (((N / W) * W : Nat) : Int) (N % W)

/-- All indices read by the blocked reduction: head lanes, then tail. -/
def blockedIndices (W N : Nat) : List Int :=
  headIndices W N ++ tailIndices W N

/-! ## `VectorByMatrixTimes` -/

/-- The small-size path of `VectorByMatrixTimes` (taken when
`matrixRowDimension < c_VectorizationWidth`): one scalar reduction over `RDom k(0, R)`. -/
def VectorByMatrixTimes.scalarPath {α : Type} [Semiring α] (vec : Int → α)
    (matrix : Int → Int → α) (matrixRowDimension : Nat) : Int → α :=
  fun matrixColumnIndex =>
    hsum (rdom 0 matrixRowDimension) (fun k => vec k * matrix matrixColumnIndex k)

/-- The Func `VectorByMatrixTimesPartial` of the source (there called "partial"):
the sum over the full blocks `k1` at lane `matrixSubRowIndex`. -/
def VectorByMatrixTimes.partialSum {α : Type} [Semiring α] (vec : Int → α)
    (matrix : Int → Int → α) (matrixRowDimension : Nat) : Int → Int → α :=
  fun matrixSubRowIndex matrixColumnIndex =>
    hsum (rdom 0 (matrixRowDimension / c_VectorizationWidth))
      (fun k1 =>
        vec (matrixSubRowIndex + k1 * (c_VectorizationWidth : Int)) *
          matrix matrixColumnIndex (matrixSubRowIndex + k1 * (c_VectorizationWidth : Int)))

/-- The Func `head` of the source: the sum of the lanes over `RDom k2(0, c_VectorizationWidth)`. -/
def VectorByMatrixTimes.head {α : Type} [Semiring α] (vec : Int → α)
    (matrix : Int → Int → α) (matrixRowDimension : Nat) : Int → α :=
  fun matrixColumnIndex =>
    hsum (rdom 0 c_VectorizationWidth)
      (fun k2 => VectorByMatrixTimes.partialSum vec matrix matrixRowDimension k2 matrixColumnIndex)

/-- The Func `tail` of the source: the sum over
`RDom k3((R / W) * W, R % W)` of `vec(k3) * matrix(matrixColumnIndex, k3)`. -/
def VectorByMatrixTimes.tail {α : Type} [Semiring α] (vec : Int → α)
    (matrix : Int → Int → α) (matrixRowDimension : Nat) : Int → α :=
  fun matrixColumnIndex =>
    hsum
      (rdom (((matrixRowDimension / c_VectorizationWidth) * c_VectorizationWidth : Nat) : Int)
        (matrixRowDimension % c_VectorizationWidth))
      (fun k3 => vec k3 * matrix matrixColumnIndex k3)

/-- The blocked path of `VectorByMatrixTimes`: `head + tail`. -/
def VectorByMatrixTimes.blockedPath {α : Type} [Semiring α] (vec : Int → α)
    (matrix : Int → Int → α) (matrixRowDimension : Nat) : Int → α :=
  fun matrixColumnIndex =>
    VectorByMatrixTimes.head vec matrix matrixRowDimension matrixColumnIndex +
      VectorByMatrixTimes.tail vec matrix matrixRowDimension matrixColumnIndex

/-- The values of the Func returned by `VectorByMatrixTimes(vec, matrix, R, C)`.
The column dimension only enters the source through `bound` and the schedule, which do
not change the values. -/
def VectorByMatrixTimes {α : Type} [Semiring α] (vec : Int → α) (matrix : Int → Int → α)
    (matrixRowDimension _matrixColumnDimension : Nat) : Int → α :=
  if matrixRowDimension < c_VectorizationWidth then
    VectorByMatrixTimes.scalarPath vec matrix matrixRowDimension
  else
    VectorByMatrixTimes.blockedPath vec matrix matrixRowDimension

/-! ## Numeric types of `Quantize` -/

/-- The limits of the wide element type `Type` of `Quantize`, as the two libraries the
source calls define them. Values of the wide type are modelled as rationals. -/
structure WideType where
  /-- The constant `std::numeric_limits<Type>::max()`. -/
  limitsMax : ℚ
  /-- The constant `std::numeric_limits<Type>::min()`. -/
  limitsMin : ℚ
  /-- Halide's `Type::max()`, the initial value of the inline reduction `Halide::minimum`. -/
  halideMax : ℚ
  /-- Halide's `Type::min()`, the initial value of the inline reduction `Halide::maximum`. -/
  halideMin : ℚ

/-- The wide type `float`: `std::numeric_limits<float>::max()` is `FLT_MAX`
(`(2^24 - 1) * 2^104`), and `std::numeric_limits<float>::min()` is `FLT_MIN`, the smallest
positive normal value `2^-126`. Halide's reductions start from `± FLT_MAX`; since the
lane seeds always take part in the final `min`/`max`, any start values at least as extreme
(such as `± ∞`) give the same scan results. -/
def float32 : WideType where
  limitsMax := (2 ^ 24 - 1) * 2 ^ 104
  limitsMin := 1 / 2 ^ 126
  halideMax := (2 ^ 24 - 1) * 2 ^ 104
  halideMin := -((2 ^ 24 - 1) * 2 ^ 104)

/-- The wide type `int`: both libraries use `INT_MAX` and `INT_MIN`. -/
def int32 : WideType where
  limitsMax := 2 ^ 31 - 1
  limitsMin := -(2 ^ 31)
  halideMax := 2 ^ 31 - 1
  halideMin := -(2 ^ 31)

/-- The narrow signed integer type `QuantizedType`, given by its number of bits
(`numQuantizedTypeBits = sizeof(QuantizedType) * 8` in the source). -/
structure NarrowType where
  /-- The width in bits. -/
  bits : Nat

/-- The constant `quantizedTypeMaxValue = std::numeric_limits<QuantizedType>::max()`. -/
def NarrowType.maxValue (Q : NarrowType) : Int := 2 ^ (Q.bits - 1) - 1

/-- The narrow type `int8_t`. -/
def int8 : NarrowType := ⟨8⟩

/-- The narrow type `int16_t`. -/
def int16 : NarrowType := ⟨16⟩

/-- Two's-complement wrap-around of an integer to a signed type of `w` bits. -/
def wrapSigned (w : Nat) (x : Int) : Int :=
  (x + 2 ^ (w - 1)) % 2 ^ w - 2 ^ (w - 1)

/-- The C++ `int` expression `1 << numReservedBits`, in 32-bit two's complement: `2^B` for
`B ≤ 30` and `-2^31` for `B = 31`. C++ leaves the shift undefined for `B ≥ 32`; the
wrap-around gives `0` there. -/
def shiftLeftOne (numReservedBits : Nat) : Int :=
  wrapSigned 32 (2 ^ numReservedBits)

/-- Conversion of a wide value to an integer: truncation toward zero. -/
def truncate (x : ℚ) : Int :=
  if 0 ≤ x then ⌊x⌋ else ⌈x⌉

/-- The cast `Halide::cast(Halide::Int(32), x)`: truncation toward zero; a value outside
the 32-bit range wraps around. -/
def castInt32 (x : ℚ) : Int :=
  wrapSigned 32 (truncate x)

/-- A Func reading a host buffer (`w(index) = b(index)`). -/
def ofBuffer (value : List ℚ) : Int → ℚ :=
  fun index => value.getD index.toNat 0

/-! ## `Quantize` -/

/-- The inline reduction `Halide::minimum(e(k))` over `dom`: starts at the largest value
of the type and takes `min` with every term. -/
def hminimum (T : WideType) (dom : List Int) (e : Int → ℚ) : ℚ :=
  dom.foldl (fun acc k => min acc (e k)) T.halideMax

/-- The inline reduction `Halide::maximum(e(k))` over `dom`. -/
def hmaximum (T : WideType) (dom : List Int) (e : Int → ℚ) : ℚ :=
  dom.foldl (fun acc k => max acc (e k)) T.halideMin

/-- The Func `minMaxHead`: lane `subRowIndex` starts at
`{numeric_limits<Type>::max(), numeric_limits<Type>::min()}` and is updated over
`RDom k1(0, N / W)` with `inputValue = vector(subRowIndex + k1 * W)`. -/
def Quantize.minMaxHead (T : WideType) (vector : Int → ℚ) (vectorRowDimension : Nat)
    (subRowIndex : Int) : ℚ × ℚ :=
  (rdom 0 (vectorRowDimension / c_VectorizationWidth)).foldl
    (fun acc k1 =>
      (min acc.1 (vector (subRowIndex + k1 * (c_VectorizationWidth : Int))),
        max acc.2 (vector (subRowIndex + k1 * (c_VectorizationWidth : Int)))))
    (T.limitsMax, T.limitsMin)

/-- The Func `minMaxTail`: minimum and maximum over `RDom k2((N / W) * W, N % W)`. -/
def Quantize.minMaxTail (T : WideType) (vector : Int → ℚ) (vectorRowDimension : Nat) : ℚ × ℚ :=
  (hminimum T
      (rdom (((vectorRowDimension / c_VectorizationWidth) * c_VectorizationWidth : Nat) : Int)
        (vectorRowDimension % c_VectorizationWidth)) vector,
    hmaximum T
      (rdom (((vectorRowDimension / c_VectorizationWidth) * c_VectorizationWidth : Nat) : Int)
        (vectorRowDimension % c_VectorizationWidth)) vector)

/-- The Func `minMax`: the head lanes reduced over `RDom k3(0, W)`, combined with the tail. -/
def Quantize.minMax (T : WideType) (vector : Int → ℚ) (vectorRowDimension : Nat) : ℚ × ℚ :=
  (min (hminimum T (rdom 0 c_VectorizationWidth)
          (fun k3 => (Quantize.minMaxHead T vector vectorRowDimension k3).1))
      (Quantize.minMaxTail T vector vectorRowDimension).1,
    max (hmaximum T (rdom 0 c_VectorizationWidth)
          (fun k3 => (Quantize.minMaxHead T vector vectorRowDimension k3).2))
      (Quantize.minMaxTail T vector vectorRowDimension).2)

/-- The Func `absMax`: `max(-minMax()[0], minMax()[1]) * (1 << numReservedBits)`. -/
def Quantize.absMax (T : WideType) (vector : Int → ℚ) (vectorRowDimension : Nat)
    (numReservedBits : Nat) : ℚ :=
  max (-(Quantize.minMax T vector vectorRowDimension).1)
      (Quantize.minMax T vector vectorRowDimension).2 * (shiftLeftOne numReservedBits : ℚ)

/-- The Func `qStep`: `absMax() / (quantizedTypeMaxValue + 0.5f)`. -/
def Quantize.qStep (T : WideType) (Q : NarrowType) (vector : Int → ℚ)
    (vectorRowDimension : Nat) (numReservedBits : Nat) : ℚ :=
  Quantize.absMax T vector vectorRowDimension numReservedBits / ((Q.maxValue : ℚ) + 1 / 2)

/-- The Func `inverseQStep`: `(quantizedTypeMaxValue + 0.5f) / absMax()`, undefined
(`none`) when `absMax()` is zero. -/
def Quantize.inverseQStep (T : WideType) (Q : NarrowType) (vector : Int → ℚ)
    (vectorRowDimension : Nat) (numReservedBits : Nat) : Option ℚ :=
  if Quantize.absMax T vector vectorRowDimension numReservedBits = 0 then none
  else some (((Q.maxValue : ℚ) + 1 / 2) /
    Quantize.absMax T vector vectorRowDimension numReservedBits)

/-- The inner cast of `quantized(index)`: the 32-bit integer
`cast(Int(32), (vector(index) * inverseQStep() + quantizedTypeMaxValue + 1.5f)
  - (1 + quantizedTypeMaxValue))`.
The subtrahend `1 + quantizedTypeMaxValue` is C++ integer arithmetic in the promoted type.
The sums and the product are exact here; `Quantize.quantizedInt32Rounded` rounds each. -/
def Quantize.quantizedInt32 (T : WideType) (Q : NarrowType) (vector : Int → ℚ)
    (vectorRowDimension : Nat) (numReservedBits : Nat) (index : Int) : Option Int :=
  (Quantize.inverseQStep T Q vector vectorRowDimension numReservedBits).map
    (fun inverseQStep =>
      castInt32 ((vector index * inverseQStep + (Q.maxValue : ℚ) + 3 / 2)
        - ((wrapSigned (max 32 Q.bits) (1 + Q.maxValue) : Int) : ℚ)))

/-- The Func `quantized`: the 32-bit integer cast to `QuantizedType`. -/
def Quantize.quantized (T : WideType) (Q : NarrowType) (vector : Int → ℚ)
    (vectorRowDimension : Nat) (numReservedBits : Nat) (index : Int) : Option Int :=
  (Quantize.quantizedInt32 T Q vector vectorRowDimension numReservedBits index).map
    (wrapSigned Q.bits)

/-- The pair `{ quantized, qStep }` returned by `Quantize<Type, QuantizedType>`. -/
def Quantize (T : WideType) (Q : NarrowType) (vector : Int → ℚ)
    (vectorRowDimension : Nat) (numReservedBits : Nat) : (Int → Option Int) × ℚ :=
  (Quantize.quantized T Q vector vectorRowDimension numReservedBits,
    Quantize.qStep T Q vector vectorRowDimension numReservedBits)

/-! ## `Slice` -/

/-- The index that `Slice` reads for output index `index`: `Halide::min(from + index, to - 1)`. -/
def Slice.readIndex (from_ to_ : Int) (index : Int) : Int :=
  min (from_ + index) (to_ - 1)

/-- The Func returned by `Slice(input, from, to)`:
`slice(index) = input(Halide::min(from + index, to - 1))`. -/
def Slice {α : Type} (input : Int → α) (from_ to_ : Int) : Int → α :=
  fun index => input (Slice.readIndex from_ to_ index)

/-! ## `VectorByMatrixTimesQuantized` -/

/-- The signed value of a 32-bit word (a residue modulo `2^32`). -/
def toInt32 (x : ZMod (2 ^ 32)) : Int :=
  wrapSigned 32 (x.val : Int)

/-- The Func `widen`: `Halide::cast<int>(vec[0](index))`. -/
def VectorByMatrixTimesQuantized.widen (vec0 : Int → Int) : Int → Int :=
  fun index => wrapSigned 32 (vec0 index)

/-- The Func `quantized` of `VectorByMatrixTimesQuantized`:
`VectorByMatrixTimes(widen, matrix[0], R, C)`, accumulated in 32-bit integers, that is in
arithmetic modulo `2^32`. -/
def VectorByMatrixTimesQuantized.quantized (vec0 : Int → Int) (matrix0 : Int → Int → Int)
    (matrixRowDimension matrixColumnDimension : Nat) : Int → Int :=
  fun matrixColumnIndex =>
    toInt32
      (VectorByMatrixTimes
        (fun index => ((VectorByMatrixTimesQuantized.widen vec0 index : Int) : ZMod (2 ^ 32)))
        (fun x y => ((matrix0 x y : Int) : ZMod (2 ^ 32)))
        matrixRowDimension matrixColumnDimension matrixColumnIndex)

/-- The Func `result` of `VectorByMatrixTimesQuantized(vec, matrix, R, C)`, where `vec` and
`matrix` are pairs of quantized values and step:
`result(j) = quantized(j) * vec[1]() * matrix[1]()`. -/
def VectorByMatrixTimesQuantized (vec : (Int → Int) × ℚ) (matrix : (Int → Int → Int) × ℚ)
    (matrixRowDimension matrixColumnDimension : Nat) : Int → ℚ :=
  fun matrixColumnIndex =>
    ((VectorByMatrixTimesQuantized.quantized vec.1 matrix.1 matrixRowDimension
        matrixColumnDimension matrixColumnIndex : Int) : ℚ) * vec.2 * matrix.2

/-- The explicit bound on the output index of the Func returned by `VectorByMatrixTimes`,
as `(min, extent)`: the small-size path returns `output` without calling `bound`; the
blocked path calls `output.bound(matrixColumnIndex, 0, matrixColumnDimension)`. -/
def VectorByMatrixTimes.outputBound (matrixRowDimension matrixColumnDimension : Nat) :
    Option (Int × Nat) :=
  if matrixRowDimension < c_VectorizationWidth then none
  else some (0, matrixColumnDimension)

/-! ## `Quantize` on a matrix and on a host array -/

/-- The Func `asVector` of the matrix `Quantize`:
`asVector(index) = matrix(index / matrixRowDimension, index % matrixRowDimension)`. -/
def QuantizeMatrix.asVector (matrix : Int → Int → ℚ) (matrixRowDimension : Nat) : Int → ℚ :=
  fun index => matrix (index / (matrixRowDimension : Int)) (index % (matrixRowDimension : Int))

/-- The Func `quantizedMatrix` of the matrix `Quantize`:
`quantizedMatrix(x, y) = result[0](x * matrixRowDimension + y)`, where `result` is the
1-D `Quantize` of `asVector` over `matrixRowDimension * matrixColumnDimension` elements. -/
def QuantizeMatrix.quantizedMatrix (T : WideType) (Q : NarrowType) (matrix : Int → Int → ℚ)
    (matrixRowDimension matrixColumnDimension : Nat) (numReservedBits : Nat) :
    Int → Int → Option Int :=
  fun x y =>
    (Quantize T Q (QuantizeMatrix.asVector matrix matrixRowDimension)
      (matrixRowDimension * matrixColumnDimension) numReservedBits).1
      (x * (matrixRowDimension : Int) + y)

/-- The pair `{ quantizedMatrix, result[1] }` returned by the matrix overload of `Quantize`. -/
def QuantizeMatrix (T : WideType) (Q : NarrowType) (matrix : Int → Int → ℚ)
    (matrixRowDimension matrixColumnDimension : Nat) (numReservedBits : Nat) :
    (Int → Int → Option Int) × ℚ :=
  (QuantizeMatrix.quantizedMatrix T Q matrix matrixRowDimension matrixColumnDimension
      numReservedBits,
    (Quantize T Q (QuantizeMatrix.asVector matrix matrixRowDimension)
      (matrixRowDimension * matrixColumnDimension) numReservedBits).2)

/-- The host-side overload `Quantize(std::vector<OriginalType> value, int numReservedBits)`
("offline quantization"): the pipeline `Quantize(w, size, numReservedBits)` over
`w(index) = b(index)` is realized into a buffer of `size = value.size()` elements and a
scalar; realization stores the value of each Func at every coordinate of its buffer. -/
def QuantizeOffline (T : WideType) (Q : NarrowType) (value : List ℚ) (numReservedBits : Nat) :
    List (Option Int) × ℚ :=
  ((List.range value.length).map
      (fun (i : Nat) => (Quantize T Q (ofBuffer value) value.length numReservedBits).1 (i : Int)),
    (Quantize T Q (ofBuffer value) value.length numReservedBits).2)

/-! ## Rounding of the wide floating-point type -/

/-- Rounding of a rational to the nearest integer, a tie going to the even integer. -/
def roundHalfEven (t : ℚ) : Int :=
  if 2 * (t - ⌊t⌋) < 1 then ⌊t⌋
  else if 1 < 2 * (t - ⌊t⌋) then ⌊t⌋ + 1
  else if ⌊t⌋ % 2 = 0 then ⌊t⌋ else ⌊t⌋ + 1

/-- The spacing of IEEE binary32 values around `x`: `2^(e - 23)` with
`e = max(floor(log2 |x|), -126)` (24-bit significand, gradual underflow). -/
def ulpFloat32 (x : ℚ) : ℚ :=
  (2 : ℚ) ^ (max (Int.log 2 |x|) (-126) - 23)

/-- The rounding that every `float` operation applies to its exact result: to the nearest
binary32 value, ties to even. Overflow to infinity is not represented. -/
def roundFloat32 (x : ℚ) : ℚ :=
  ulpFloat32 x * (roundHalfEven (x / ulpFloat32 x) : ℚ)

/-- The Func `absMax` with the rounding `fl` of the wide type applied to every conversion
and operation: `max(-minMax()[0], minMax()[1]) * (1 << numReservedBits)`. -/
def Quantize.absMaxRounded (fl : ℚ → ℚ) (T : WideType) (vector : Int → ℚ)
    (vectorRowDimension : Nat) (numReservedBits : Nat) : ℚ :=
  fl (max (-(Quantize.minMax T vector vectorRowDimension).1)
        (Quantize.minMax T vector vectorRowDimension).2
      * fl (shiftLeftOne numReservedBits : ℚ))

/-- The Func `inverseQStep` with the rounding `fl` applied to every conversion and
operation: `(quantizedTypeMaxValue + 0.5f) / absMax()`. -/
def Quantize.inverseQStepRounded (fl : ℚ → ℚ) (T : WideType) (Q : NarrowType)
    (vector : Int → ℚ) (vectorRowDimension : Nat) (numReservedBits : Nat) : Option ℚ :=
  if Quantize.absMaxRounded fl T vector vectorRowDimension numReservedBits = 0 then none
  else some (fl (fl (fl (Q.maxValue : ℚ) + 1 / 2) /
    Quantize.absMaxRounded fl T vector vectorRowDimension numReservedBits))

/-- The inner cast of `quantized(index)` with the rounding `fl` applied to every conversion
and operation, in the order of the source:
`cast(Int(32), (vector(index) * inverseQStep() + quantizedTypeMaxValue + 1.5f)
  - (1 + quantizedTypeMaxValue))`.
With `fl` the identity this is `Quantize.quantizedInt32`. -/
def Quantize.quantizedInt32Rounded (fl : ℚ → ℚ) (T : WideType) (Q : NarrowType)
    (vector : Int → ℚ) (vectorRowDimension : Nat) (numReservedBits : Nat) (index : Int) :
    Option Int :=
  (Quantize.inverseQStepRounded fl T Q vector vectorRowDimension numReservedBits).map
    (fun inverseQStep =>
      castInt32
        (fl (fl (fl (fl (vector index * inverseQStep) + fl (Q.maxValue : ℚ)) + 3 / 2)
          - fl ((wrapSigned (max 32 Q.bits) (1 + Q.maxValue) : Int) : ℚ))))

/-! ## Reference definitions taken from the specification -/

/-- The smallest element of `vector` over the indices `[0, N)` (for `N ≥ 1`). -/
def smallest (vector : Int → ℚ) (N : Nat) : ℚ :=
  (List.range N).foldl (fun m (i : Nat) => min m (vector (i : Int))) (vector 0)

/-- The largest element of `vector` over the indices `[0, N)` (for `N ≥ 1`). -/
def largest (vector : Int → ℚ) (N : Nat) : ℚ :=
  (List.range N).foldl (fun m (i : Nat) => max m (vector (i : Int))) (vector 0)

/-- The quantized value as the specification writes it:
`cast_to_wide_int(value * inverseStep + narrowTypeMax + 1.5) - (narrowTypeMax + 1)`,
the cast applied before the subtraction. -/
def Quantize.specQuantized (T : WideType) (Q : NarrowType) (vector : Int → ℚ)
    (vectorRowDimension : Nat) (numReservedBits : Nat) (index : Int) : Option Int :=
  (Quantize.inverseQStep T Q vector vectorRowDimension numReservedBits).map
    (fun inverseQStep =>
      castInt32 (vector index * inverseQStep + (Q.maxValue : ℚ) + 3 / 2) - (Q.maxValue + 1))

/-- The largest absolute value over all entries `matrix(x, y)`, `x` in `[0, columns)`,
`y` in `[0, rows)`, of a matrix. -/
def largestAbs (matrix : Int → Int → ℚ) (rows columns : Nat) : ℚ :=
  ((List.range columns).flatMap
      (fun (x : Nat) => (List.range rows).map (fun (y : Nat) => |matrix (x : Int) (y : Int)|))).foldl
    max 0

/-- A test matrix of small integers with 5 rows and 3 columns, addressed as
`testMatrix(column, row)`; column `x` is stored at the positions `5 * x, ..., 5 * x + 4`. -/
def testMatrix : Int → Int → ℚ :=
  fun x y => ofBuffer [1, 0, 2, 1, 3, 0, 1, 1, 2, 0, 2, 2, 1, 0, 1] (x * 5 + y)

/-- The naive dot product of the specification: the sum over `k` in `[0, R)` of
`vec(k) * matrix(j, k)`. -/
def naiveDot {α : Type} [Semiring α] (vec : Int → α) (matrix : Int → Int → α)
    (R : Nat) (j : Int) : α :=
  ∑ k in Finset.range R, vec (k : Int) * matrix j (k : Int)

/-! ## Lemmas on reduction domains -/

theorem rdom_zero_left (n : Nat) :
    rdom 0 n = (List.range n).map (fun (i : Nat) => (i : Int)) := by
  simp [rdom]

theorem mem_rdom {m : Int} {n : Nat} {x : Int} : x ∈ rdom m n ↔ m ≤ x ∧ x < m + n := by
  simp only [rdom, List.mem_map, List.mem_range]
  constructor
  · rintro ⟨i, hi, rfl⟩
    omega
  · rintro ⟨h1, h2⟩
    exact ⟨(x - m).toNat, by omega, by omega⟩

theorem rdom_add (m : Int) (a b : Nat) :
    rdom m (a + b) = rdom m a ++ rdom (m + a) b := by
  simp [rdom, List.range_add, add_assoc]

theorem flatMap_single_eq_map {β γ : Type} (f : β → γ) (l : List β) :
    l.flatMap (fun x => [f x]) = l.map f := by
  induction l with
  | nil => rfl
  | cons a l ih => simp [List.flatMap_cons, ih]

/-- The head over `b` full blocks of width `W` is a rearrangement of `[0, b * W)`. -/
theorem headBlocks_perm (W b : Nat) :
    List.Perm ((rdom 0 W).flatMap (fun lane => (rdom 0 b).map (fun k1 => lane + k1 * (W : Int))))
      (rdom 0 (b * W)) := by
  induction b with
  | zero => simp [rdom]
  | succ b ih =>
    have hsplit : ∀ lane : Int, (rdom 0 (b + 1)).map (fun k1 => lane + k1 * (W : Int))
        = (rdom 0 b).map (fun k1 => lane + k1 * (W : Int)) ++ [lane + (b : Int) * (W : Int)] := by
      intro lane
      simp [rdom, List.range_succ]
    simp only [hsplit]
    refine (List.flatMap_append_perm (rdom 0 W) _ _).symm.trans ?_
    have hlast : (rdom 0 W).flatMap (fun lane => [lane + (b : Int) * (W : Int)])
        = rdom ((b * W : Nat) : Int) W := by
      rw [flatMap_single_eq_map]
      simp [rdom, Function.comp_def, add_comm]
    rw [hlast, Nat.succ_mul, rdom_add]
    simpa using ih.append_right _

/-- Head lanes plus tail are a rearrangement of `[0, N)`. -/
theorem blockedIndices_perm (W N : Nat) : List.Perm (blockedIndices W N) (rdom 0 N) := by
  unfold blockedIndices headIndices tailIndices
  have h := (headBlocks_perm W (N / W)).append_right (rdom (((N / W) * W : Nat) : Int) (N % W))
  have hN : rdom 0 N = rdom 0 ((N / W) * W) ++ rdom (0 + ((N / W) * W : Nat)) (N % W) := by
    rw [← rdom_add, Nat.div_add_mod']
  rw [hN]
  simpa using h

theorem nodup_rdom (m : Int) (n : Nat) : (rdom m n).Nodup := by
  unfold rdom
  refine (List.nodup_range n).map ?_
  intro a b h
  simpa using h

/-! ## Lemmas on `Halide::sum` -/

theorem foldl_add_eq {α : Type} [AddCommMonoid α] (e : Int → α) (l : List Int) (a : α) :
    l.foldl (fun acc k => acc + e k) a = a + (l.map e).sum := by
  induction l generalizing a with
  | nil => simp
  | cons x l ih => simp [ih, add_assoc]

theorem hsum_eq_sum_map {α : Type} [AddCommMonoid α] (dom : List Int) (e : Int → α) :
    hsum dom e = (dom.map e).sum := by
  simp [hsum, foldl_add_eq]

theorem hsum_perm {α : Type} [AddCommMonoid α] {d₁ d₂ : List Int} (h : List.Perm d₁ d₂)
    (e : Int → α) : hsum d₁ e = hsum d₂ e := by
  rw [hsum_eq_sum_map, hsum_eq_sum_map]
  exact (h.map e).sum_eq

theorem hsum_append {α : Type} [AddCommMonoid α] (d₁ d₂ : List Int) (e : Int → α) :
    hsum (d₁ ++ d₂) e = hsum d₁ e + hsum d₂ e := by
  simp [hsum_eq_sum_map]

theorem hsum_flatMap {α : Type} [AddCommMonoid α] (l : List Int) (g : Int → List Int)
    (e : Int → α) : hsum (l.flatMap g) e = hsum l (fun x => hsum (g x) e) := by
  induction l with
  | nil => simp [hsum]
  | cons a l ih =>
    rw [List.flatMap_cons, hsum_append, ih]
    simp [hsum_eq_sum_map]

theorem hsum_map {α : Type} [AddCommMonoid α] (l : List Int) (g : Int → Int) (e : Int → α) :
    hsum (l.map g) e = hsum l (fun x => e (g x)) := by
  simp [hsum_eq_sum_map, Function.comp_def]

theorem hsum_rdom_zero {α : Type} [AddCommMonoid α] (n : Nat) (e : Int → α) :
    hsum (rdom 0 n) e = ∑ k in Finset.range n, e (k : Int) := by
  rw [hsum_eq_sum_map, rdom_zero_left, List.map_map]
  induction n with
  | zero => simp
  | succ n ih => simp [List.range_succ, Finset.sum_range_succ, ih]

/-- The head of `VectorByMatrixTimes` sums its term over `headIndices`. -/
theorem head_eq_hsum_headIndices {α : Type} [Semiring α] (vec : Int → α)
    (matrix : Int → Int → α) (R : Nat) (j : Int) :
    VectorByMatrixTimes.head vec matrix R j
      = hsum (headIndices c_VectorizationWidth R) (fun k => vec k * matrix j k) := by
  unfold VectorByMatrixTimes.head VectorByMatrixTimes.partialSum headIndices
  rw [hsum_flatMap]
  simp only [hsum_map]

/-- The blocked path of `VectorByMatrixTimes` sums its term over `blockedIndices`. -/
theorem blockedPath_eq_hsum {α : Type} [Semiring α] (vec : Int → α)
    (matrix : Int → Int → α) (R : Nat) (j : Int) :
    VectorByMatrixTimes.blockedPath vec matrix R j
      = hsum (blockedIndices c_VectorizationWidth R) (fun k => vec k * matrix j k) := by
  unfold VectorByMatrixTimes.blockedPath blockedIndices
  rw [hsum_append, head_eq_hsum_headIndices]
  rfl

theorem blockedPath_eq_scalarPath {α : Type} [Semiring α] (vec : Int → α)
    (matrix : Int → Int → α) (R : Nat) (j : Int) :
    VectorByMatrixTimes.blockedPath vec matrix R j
      = VectorByMatrixTimes.scalarPath vec matrix R j := by
  rw [blockedPath_eq_hsum]
  exact hsum_perm (blockedIndices_perm _ _) _

/-! ## Lemmas on the min/max scan -/

theorem foldl_min_le_iff (e : Int → ℚ) (l : List Int) (a x : ℚ) :
    l.foldl (fun acc k => min acc (e k)) a ≤ x ↔ a ≤ x ∨ ∃ k ∈ l, e k ≤ x := by
  induction l generalizing a with
  | nil => simp
  | cons b l ih =>
    simp only [List.foldl_cons, ih, min_le_iff, List.mem_cons, exists_eq_or_imp]
    tauto

theorem le_foldl_max_iff (e : Int → ℚ) (l : List Int) (a x : ℚ) :
    x ≤ l.foldl (fun acc k => max acc (e k)) a ↔ x ≤ a ∨ ∃ k ∈ l, x ≤ e k := by
  induction l generalizing a with
  | nil => simp
  | cons b l ih =>
    simp only [List.foldl_cons, ih, le_max_iff, List.mem_cons, exists_eq_or_imp]
    tauto

theorem foldl_minMax_pair (e : Int → ℚ) (l : List Int) (a b : ℚ) :
    l.foldl (fun (acc : ℚ × ℚ) k => (min acc.1 (e k), max acc.2 (e k))) (a, b)
      = (l.foldl (fun acc k => min acc (e k)) a, l.foldl (fun acc k => max acc (e k)) b) := by
  induction l generalizing a b with
  | nil => rfl
  | cons c l ih => simp only [List.foldl_cons, ih]

theorem rdom_vectorizationWidth_nonempty : (0 : Int) ∈ rdom 0 c_VectorizationWidth := by
  decide

theorem mem_headIndices {W N : Nat} {x : Int} :
    x ∈ headIndices W N ↔
      ∃ lane ∈ rdom 0 W, ∃ k1 ∈ rdom 0 (N / W), lane + k1 * (W : Int) = x := by
  simp [headIndices, List.mem_flatMap]

theorem mem_blockedIndices_iff (W N : Nat) (x : Int) :
    x ∈ blockedIndices W N ↔ ∃ i : Nat, i < N ∧ (i : Int) = x := by
  rw [(blockedIndices_perm W N).mem_iff, mem_rdom]
  constructor
  · rintro ⟨h0, h1⟩
    exact ⟨x.toNat, by omega, by omega⟩
  · rintro ⟨i, hi, rfl⟩
    omega

/-- The computed minimum lies below `x` exactly when a seed or an element does. -/
theorem minMax_fst_le_iff (T : WideType) (v : Int → ℚ) (N : Nat) (x : ℚ) :
    (Quantize.minMax T v N).1 ≤ x ↔
      T.halideMax ≤ x ∨ T.limitsMax ≤ x ∨ ∃ i : Nat, i < N ∧ v i ≤ x := by
  have hblk : (∃ k ∈ blockedIndices c_VectorizationWidth N, v k ≤ x) ↔
      ∃ i : Nat, i < N ∧ v i ≤ x := by
    constructor
    · rintro ⟨k, hk, hkx⟩
      obtain ⟨i, hi, rfl⟩ := (mem_blockedIndices_iff _ _ _).1 hk
      exact ⟨i, hi, hkx⟩
    · rintro ⟨i, hi, hix⟩
      exact ⟨i, (mem_blockedIndices_iff _ _ _).2 ⟨i, hi, rfl⟩, hix⟩
  rw [← hblk]
  simp only [Quantize.minMax, Quantize.minMaxTail, Quantize.minMaxHead, hminimum,
    foldl_minMax_pair, min_le_iff, foldl_min_le_iff, blockedIndices, List.mem_append,
    mem_headIndices, tailIndices]
  constructor
  · rintro ((h | ⟨k3, hk3, (h | ⟨k1, hk1, h⟩)⟩) | (h | ⟨k, hk, h⟩))
    · exact Or.inl h
    · exact Or.inr (Or.inl h)
    · exact Or.inr (Or.inr ⟨_, Or.inl ⟨k3, hk3, k1, hk1, rfl⟩, h⟩)
    · exact Or.inl h
    · exact Or.inr (Or.inr ⟨k, Or.inr hk, h⟩)
  · rintro (h | h | ⟨k, (⟨k3, hk3, k1, hk1, rfl⟩ | hk), h⟩)
    · exact Or.inl (Or.inl h)
    · exact Or.inl (Or.inr ⟨0, rdom_vectorizationWidth_nonempty, Or.inl h⟩)
    · exact Or.inl (Or.inr ⟨k3, hk3, Or.inr ⟨k1, hk1, h⟩⟩)
    · exact Or.inr (Or.inr ⟨k, hk, h⟩)

/-- The computed maximum lies above `x` exactly when a seed or an element does. -/
theorem le_minMax_snd_iff (T : WideType) (v : Int → ℚ) (N : Nat) (x : ℚ) :
    x ≤ (Quantize.minMax T v N).2 ↔
      x ≤ T.halideMin ∨ x ≤ T.limitsMin ∨ ∃ i : Nat, i < N ∧ x ≤ v i := by
  have hblk : (∃ k ∈ blockedIndices c_VectorizationWidth N, x ≤ v k) ↔
      ∃ i : Nat, i < N ∧ x ≤ v i := by
    constructor
    · rintro ⟨k, hk, hkx⟩
      obtain ⟨i, hi, rfl⟩ := (mem_blockedIndices_iff _ _ _).1 hk
      exact ⟨i, hi, hkx⟩
    · rintro ⟨i, hi, hix⟩
      exact ⟨i, (mem_blockedIndices_iff _ _ _).2 ⟨i, hi, rfl⟩, hix⟩
  rw [← hblk]
  simp only [Quantize.minMax, Quantize.minMaxTail, Quantize.minMaxHead, hmaximum,
    foldl_minMax_pair, le_max_iff, le_foldl_max_iff, blockedIndices, List.mem_append,
    mem_headIndices, tailIndices]
  constructor
  · rintro ((h | ⟨k3, hk3, (h | ⟨k1, hk1, h⟩)⟩) | (h | ⟨k, hk, h⟩))
    · exact Or.inl h
    · exact Or.inr (Or.inl h)
    · exact Or.inr (Or.inr ⟨_, Or.inl ⟨k3, hk3, k1, hk1, rfl⟩, h⟩)
    · exact Or.inl h
    · exact Or.inr (Or.inr ⟨k, Or.inr hk, h⟩)
  · rintro (h | h | ⟨k, (⟨k3, hk3, k1, hk1, rfl⟩ | hk), h⟩)
    · exact Or.inl (Or.inl h)
    · exact Or.inl (Or.inr ⟨0, rdom_vectorizationWidth_nonempty, Or.inl h⟩)
    · exact Or.inl (Or.inr ⟨k3, hk3, Or.inr ⟨k1, hk1, h⟩⟩)
    · exact Or.inr (Or.inr ⟨k, hk, h⟩)

theorem minMax_fst_le (T : WideType) (v : Int → ℚ) (N : Nat) {i : Nat} (hi : i < N) :
    (Quantize.minMax T v N).1 ≤ v i :=
  (minMax_fst_le_iff T v N _).2 (Or.inr (Or.inr ⟨i, hi, le_rfl⟩))

theorem le_minMax_snd (T : WideType) (v : Int → ℚ) (N : Nat) {i : Nat} (hi : i < N) :
    v i ≤ (Quantize.minMax T v N).2 :=
  (le_minMax_snd_iff T v N _).2 (Or.inr (Or.inr ⟨i, hi, le_rfl⟩))

theorem smallest_le_iff (v : Int → ℚ) {N : Nat} (hN : 1 ≤ N) (x : ℚ) :
    smallest v N ≤ x ↔ ∃ i : Nat, i < N ∧ v i ≤ x := by
  have key : ∀ (l : List Nat) (a : ℚ),
      l.foldl (fun m (i : Nat) => min m (v (i : Int))) a ≤ x ↔ a ≤ x ∨ ∃ i ∈ l, v (i : Int) ≤ x := by
    intro l
    induction l with
    | nil => simp
    | cons b l ih =>
      intro a
      simp only [List.foldl_cons, ih, min_le_iff, List.mem_cons, exists_eq_or_imp]
      tauto
  unfold smallest
  rw [key]
  simp only [List.mem_range]
  constructor
  · rintro (h | h)
    · exact ⟨0, hN, by simpa using h⟩
    · exact h
  · exact Or.inr

theorem le_largest_iff (v : Int → ℚ) {N : Nat} (hN : 1 ≤ N) (x : ℚ) :
    x ≤ largest v N ↔ ∃ i : Nat, i < N ∧ x ≤ v i := by
  have key : ∀ (l : List Nat) (a : ℚ),
      x ≤ l.foldl (fun m (i : Nat) => max m (v (i : Int))) a ↔ x ≤ a ∨ ∃ i ∈ l, x ≤ v (i : Int) := by
    intro l
    induction l with
    | nil => simp
    | cons b l ih =>
      intro a
      simp only [List.foldl_cons, ih, le_max_iff, List.mem_cons, exists_eq_or_imp]
      tauto
  unfold largest
  rw [key]
  simp only [List.mem_range]
  constructor
  · rintro (h | h)
    · exact ⟨0, hN, by simpa using h⟩
    · exact h
  · exact Or.inr

/-- When every element lies between the seeds, the scan returns the smallest and the
largest element. -/
theorem minMax_eq_of_seeds (T : WideType) (v : Int → ℚ) {N : Nat} (hN : 1 ≤ N)
    (hmax : ∀ i : Nat, i < N → v i ≤ T.limitsMax ∧ v i ≤ T.halideMax)
    (hmin : ∀ i : Nat, i < N → T.limitsMin ≤ v i ∧ T.halideMin ≤ v i) :
    Quantize.minMax T v N = (smallest v N, largest v N) := by
  refine Prod.ext ?_ ?_
  · refine eq_of_forall_ge_iff (fun x => ?_)
    rw [minMax_fst_le_iff, smallest_le_iff v hN]
    constructor
    · rintro (h | h | h)
      · exact ⟨0, hN, (hmax 0 hN).2.trans h⟩
      · exact ⟨0, hN, (hmax 0 hN).1.trans h⟩
      · exact h
    · exact fun h => Or.inr (Or.inr h)
  · refine eq_of_forall_le_iff (fun x => ?_)
    rw [le_minMax_snd_iff, le_largest_iff v hN]
    constructor
    · rintro (h | h | h)
      · exact ⟨0, hN, h.trans (hmin 0 hN).2⟩
      · exact ⟨0, hN, h.trans (hmin 0 hN).1⟩
      · exact h
    · exact fun h => Or.inr (Or.inr h)

/-! ## Lemmas on machine integers and truncation -/

theorem wrapSigned_eq_self {w : Nat} (hw : 1 ≤ w) {x : Int}
    (hlo : -(2 ^ (w - 1)) ≤ x) (hhi : x < 2 ^ (w - 1)) : wrapSigned w x = x := by
  unfold wrapSigned
  have hpow : (2 : Int) ^ w = 2 * 2 ^ (w - 1) := by
    conv_lhs => rw [← Nat.sub_add_cancel hw]
    rw [pow_succ]
    ring
  rw [Int.emod_eq_of_lt (by omega) (by omega)]
  ring

theorem shiftLeftOne_eq {B : Nat} (hB : B ≤ 30) : shiftLeftOne B = 2 ^ B := by
  unfold shiftLeftOne
  have h1 : (2 : Int) ^ B ≤ 2 ^ 30 := pow_le_pow_right₀ (by norm_num) hB
  have h2 : (0 : Int) < 2 ^ B := by positivity
  exact wrapSigned_eq_self (by norm_num) (by norm_num; omega) (by norm_num; omega)

theorem maxValue_nonneg (Q : NarrowType) : 0 ≤ Q.maxValue := by
  unfold NarrowType.maxValue
  have : (1 : Int) ≤ 2 ^ (Q.bits - 1) := one_le_pow₀ (by norm_num)
  omega

theorem maxValue_lt (Q : NarrowType) (hb : Q.bits ≤ 31) : Q.maxValue < 2 ^ 30 := by
  unfold NarrowType.maxValue
  have : (2 : Int) ^ (Q.bits - 1) ≤ 2 ^ 30 := pow_le_pow_right₀ (by norm_num) (by omega)
  omega

theorem promoted_one_add_maxValue (Q : NarrowType) (hb : Q.bits ≤ 31) :
    wrapSigned (max 32 Q.bits) (1 + Q.maxValue) = 1 + Q.maxValue := by
  have hmax : max 32 Q.bits = 32 := max_eq_left (by omega)
  rw [hmax]
  have h1 := maxValue_nonneg Q
  have h2 := maxValue_lt Q hb
  exact wrapSigned_eq_self (by norm_num) (by norm_num; omega) (by norm_num; omega)

theorem truncate_of_nonneg {x : ℚ} (hx : 0 ≤ x) : truncate x = ⌊x⌋ := by
  simp [truncate, hx]

theorem le_truncate {x : ℚ} {lo : Int} (hlo : lo ≤ 0) (h : (lo : ℚ) ≤ x) : lo ≤ truncate x := by
  unfold truncate
  split
  · rename_i hx
    exact hlo.trans (Int.floor_nonneg.2 hx)
  · have : (lo : ℚ) ≤ (⌈x⌉ : ℚ) := h.trans (Int.le_ceil x)
    exact_mod_cast this

theorem truncate_le {x : ℚ} {hi : Int} (hhi : 0 ≤ hi) (h : x < (hi : ℚ) + 1) :
    truncate x ≤ hi := by
  unfold truncate
  split
  · have : ⌊x⌋ < hi + 1 := Int.floor_lt.2 (by push_cast; exact h)
    omega
  · rename_i hx
    have : ⌈x⌉ ≤ 0 := Int.ceil_le.2 (by push_cast; exact le_of_lt (not_le.1 hx))
    omega

/-! ## Lemmas on the scale computation -/

theorem abs_le_max_neg_minMax (T : WideType) (v : Int → ℚ) (N : Nat) {i : Nat} (hi : i < N) :
    |v i| ≤ max (-(Quantize.minMax T v N).1) (Quantize.minMax T v N).2 := by
  have h1 := minMax_fst_le T v N hi
  have h2 := le_minMax_snd T v N hi
  rw [abs_le]
  constructor
  · have := le_max_left (-(Quantize.minMax T v N).1) (Quantize.minMax T v N).2
    linarith
  · exact h2.trans (le_max_right _ _)

theorem absMax_eq (T : WideType) (v : Int → ℚ) (N : Nat) {B : Nat} (hB : B ≤ 30) :
    Quantize.absMax T v N B
      = max (-(Quantize.minMax T v N).1) (Quantize.minMax T v N).2 * 2 ^ B := by
  unfold Quantize.absMax
  rw [shiftLeftOne_eq hB]
  push_cast
  rfl

theorem abs_mul_le_absMax (T : WideType) (v : Int → ℚ) (N : Nat) {B : Nat} (hB : B ≤ 30)
    {i : Nat} (hi : i < N) : |v i| * 2 ^ B ≤ Quantize.absMax T v N B := by
  rw [absMax_eq T v N hB]
  exact mul_le_mul_of_nonneg_right (abs_le_max_neg_minMax T v N hi) (by positivity)

theorem abs_le_absMax (T : WideType) (v : Int → ℚ) (N : Nat) {B : Nat} (hB : B ≤ 30)
    {i : Nat} (hi : i < N) : |v i| ≤ Quantize.absMax T v N B := by
  have h := abs_mul_le_absMax T v N hB hi
  have h1 : (1 : ℚ) ≤ 2 ^ B := one_le_pow₀ (by norm_num)
  have h0 : 0 ≤ |v i| := abs_nonneg _
  nlinarith

theorem absMax_pos (T : WideType) (v : Int → ℚ) (N : Nat) {B : Nat} (hB : B ≤ 30)
    (hnz : ∃ k : Nat, k < N ∧ v k ≠ 0) : 0 < Quantize.absMax T v N B := by
  obtain ⟨k, hk, hvk⟩ := hnz
  exact (abs_pos.2 hvk).trans_le (abs_le_absMax T v N hB hk)

theorem lt_absMax_of_reserved (T : WideType) (v : Int → ℚ) (N : Nat) {B : Nat} (hB : B ≤ 30)
    (hB1 : 1 ≤ B) (hnz : ∃ k : Nat, k < N ∧ v k ≠ 0) {i : Nat} (hi : i < N) :
    v i < Quantize.absMax T v N B := by
  have hpos := absMax_pos T v N hB hnz
  have h := abs_mul_le_absMax T v N hB hi
  have h2 : (2 : ℚ) ≤ 2 ^ B := by
    calc (2 : ℚ) = 2 ^ 1 := by norm_num
      _ ≤ 2 ^ B := pow_le_pow_right₀ (by norm_num) hB1
  have h0 : 0 ≤ |v i| := abs_nonneg _
  have h3 : v i ≤ |v i| := le_abs_self _
  nlinarith

theorem maxValue_half_pos (Q : NarrowType) : (0 : ℚ) < (Q.maxValue : ℚ) + 1 / 2 := by
  have h : (0 : ℚ) ≤ (Q.maxValue : ℚ) := by exact_mod_cast maxValue_nonneg Q
  linarith

theorem qStep_pos (T : WideType) (Q : NarrowType) (v : Int → ℚ) (N : Nat) {B : Nat}
    (hB : B ≤ 30) (hnz : ∃ k : Nat, k < N ∧ v k ≠ 0) : 0 < Quantize.qStep T Q v N B :=
  div_pos (absMax_pos T v N hB hnz) (maxValue_half_pos Q)

theorem inverseQStep_eq_some (T : WideType) (Q : NarrowType) (v : Int → ℚ) (N B : Nat)
    (h : Quantize.absMax T v N B ≠ 0) :
    Quantize.inverseQStep T Q v N B
      = some (((Q.maxValue : ℚ) + 1 / 2) / Quantize.absMax T v N B) := by
  simp [Quantize.inverseQStep, h]

/-- The argument of the 32-bit cast is `vector(index) * inverseQStep + 1/2`. -/
theorem quantizedInt32_eq (T : WideType) (Q : NarrowType) (v : Int → ℚ) (N B : Nat)
    (hb : Q.bits ≤ 31) (h : Quantize.absMax T v N B ≠ 0) (index : Int) :
    Quantize.quantizedInt32 T Q v N B index
      = some (castInt32
          (v index * (((Q.maxValue : ℚ) + 1 / 2) / Quantize.absMax T v N B) + 1 / 2)) := by
  unfold Quantize.quantizedInt32
  rw [inverseQStep_eq_some T Q v N B h, promoted_one_add_maxValue Q hb]
  simp only [Option.map_some']
  congr 2
  push_cast
  ring

/-- Bounds of the scaled value: `-(M + 1/2) ≤ v * inverseQStep`, and `< M + 1/2` for an
element below `absMax`. -/
theorem scaled_bounds (T : WideType) (Q : NarrowType) (v : Int → ℚ) (N : Nat) {B : Nat}
    (hB : B ≤ 30) (hnz : ∃ k : Nat, k < N ∧ v k ≠ 0) {i : Nat} (hi : i < N) :
    -((Q.maxValue : ℚ) + 1 / 2)
        ≤ v i * (((Q.maxValue : ℚ) + 1 / 2) / Quantize.absMax T v N B) ∧
      (v i < Quantize.absMax T v N B →
        v i * (((Q.maxValue : ℚ) + 1 / 2) / Quantize.absMax T v N B)
          < (Q.maxValue : ℚ) + 1 / 2) := by
  have hpos := absMax_pos T v N hB hnz
  have hc := maxValue_half_pos Q
  have habs := abs_le_absMax T v N hB hi
  have hlow : -Quantize.absMax T v N B ≤ v i := by
    have := neg_abs_le (v i)
    linarith
  have hrw : v i * (((Q.maxValue : ℚ) + 1 / 2) / Quantize.absMax T v N B)
      = (v i / Quantize.absMax T v N B) * ((Q.maxValue : ℚ) + 1 / 2) := by
    rw [mul_div_assoc', div_mul_eq_mul_div]
  rw [hrw]
  constructor
  · have h1 : -1 ≤ v i / Quantize.absMax T v N B := by
      rw [le_div_iff₀ hpos]
      linarith
    nlinarith
  · intro hlt
    have h1 : v i / Quantize.absMax T v N B < 1 := by
      rw [div_lt_one hpos]
      exact hlt
    nlinarith

/-- For an element below `absMax` the quantized value is the truncation of
`v * inverseQStep + 1/2`, lies in `[-M, M]`, and is unchanged by both casts. -/
theorem quantized_eq_truncate (T : WideType) (Q : NarrowType) (v : Int → ℚ) (N : Nat)
    {B : Nat} (hB : B ≤ 30) (hb1 : 1 ≤ Q.bits) (hb2 : Q.bits ≤ 31)
    (hnz : ∃ k : Nat, k < N ∧ v k ≠ 0) {i : Nat} (hi : i < N)
    (hlt : v i < Quantize.absMax T v N B) :
    Quantize.quantizedInt32 T Q v N B i
        = some (truncate
            (v i * (((Q.maxValue : ℚ) + 1 / 2) / Quantize.absMax T v N B) + 1 / 2)) ∧
      Quantize.quantized T Q v N B i
        = some (truncate
            (v i * (((Q.maxValue : ℚ) + 1 / 2) / Quantize.absMax T v N B) + 1 / 2)) ∧
      -Q.maxValue ≤ truncate
            (v i * (((Q.maxValue : ℚ) + 1 / 2) / Quantize.absMax T v N B) + 1 / 2) ∧
      truncate (v i * (((Q.maxValue : ℚ) + 1 / 2) / Quantize.absMax T v N B) + 1 / 2)
        ≤ Q.maxValue := by
  have hpos := absMax_pos T v N hB hnz
  obtain ⟨hlo, hhi⟩ := scaled_bounds T Q v N hB hnz hi
  have hhi := hhi hlt
  have hM0 := maxValue_nonneg Q
  have hM1 := maxValue_lt Q hb2
  have ht1 : -Q.maxValue ≤ truncate
      (v i * (((Q.maxValue : ℚ) + 1 / 2) / Quantize.absMax T v N B) + 1 / 2) :=
    le_truncate (by omega) (by push_cast; linarith)
  have ht2 : truncate
      (v i * (((Q.maxValue : ℚ) + 1 / 2) / Quantize.absMax T v N B) + 1 / 2) ≤ Q.maxValue :=
    truncate_le hM0 (by linarith)
  have h32 : Quantize.quantizedInt32 T Q v N B i
      = some (truncate
          (v i * (((Q.maxValue : ℚ) + 1 / 2) / Quantize.absMax T v N B) + 1 / 2)) := by
    rw [quantizedInt32_eq T Q v N B hb2 hpos.ne']
    unfold castInt32
    rw [wrapSigned_eq_self (by norm_num) (by norm_num; omega) (by norm_num; omega)]
  refine ⟨h32, ?_, ht1, ht2⟩
  unfold Quantize.quantized
  rw [h32]
  simp only [Option.map_some']
  have hMdef : Q.maxValue = 2 ^ (Q.bits - 1) - 1 := rfl
  rw [wrapSigned_eq_self hb1 (by omega) (by omega)]

theorem truncate_eq_of_nonneg {x : ℚ} {z : Int} (h0 : 0 ≤ x) (h1 : (z : ℚ) ≤ x)
    (h2 : x < (z : ℚ) + 1) : truncate x = z := by
  rw [truncate_of_nonneg h0, Int.floor_eq_iff]
  exact ⟨h1, h2⟩

theorem truncate_eq_of_neg {x : ℚ} {z : Int} (h0 : x < 0) (h1 : (z : ℚ) - 1 < x)
    (h2 : x ≤ (z : ℚ)) : truncate x = z := by
  unfold truncate
  rw [if_neg (not_le.2 h0), Int.ceil_eq_iff]
  exact ⟨h1, h2⟩

theorem smallest_mem (v : Int → ℚ) {N : Nat} (hN : 1 ≤ N) :
    ∃ i : Nat, i < N ∧ v i = smallest v N := by
  obtain ⟨i, hi, hle⟩ := (smallest_le_iff v hN (smallest v N)).1 le_rfl
  exact ⟨i, hi, le_antisymm hle ((smallest_le_iff v hN (v i)).2 ⟨i, hi, le_rfl⟩)⟩

theorem largest_mem (v : Int → ℚ) {N : Nat} (hN : 1 ≤ N) :
    ∃ i : Nat, i < N ∧ v i = largest v N := by
  obtain ⟨i, hi, hle⟩ := (le_largest_iff v hN (largest v N)).1 le_rfl
  exact ⟨i, hi, le_antisymm ((le_largest_iff v hN (v i)).2 ⟨i, hi, le_rfl⟩) hle⟩

/-- With seeds that lie on the correct side of zero (as for an integer wide type), the
computed `absMax` vanishes exactly for the all-zero vector. -/
theorem absMax_eq_zero_iff_of_seeds (T : WideType) (v : Int → ℚ) {N : Nat} (hN : 1 ≤ N)
    {B : Nat} (hB : B ≤ 30) (hmax : 0 ≤ T.limitsMax ∧ 0 ≤ T.halideMax)
    (hmin : T.limitsMin ≤ 0 ∧ T.halideMin ≤ 0) :
    Quantize.absMax T v N B = 0 ↔ ∀ i : Nat, i < N → v i = 0 := by
  constructor
  · intro h0 i hi
    by_contra hne
    exact (absMax_pos T v N hB ⟨i, hi, hne⟩).ne' h0
  · intro hz
    have hmm : Quantize.minMax T v N = (smallest v N, largest v N) :=
      minMax_eq_of_seeds T v hN
        (fun i hi => by rw [hz i hi]; exact hmax)
        (fun i hi => by rw [hz i hi]; exact hmin)
    obtain ⟨i, hi, hs⟩ := smallest_mem v hN
    obtain ⟨j, hj, hl⟩ := largest_mem v hN
    rw [absMax_eq T v N hB, hmm, ← hs, ← hl, hz i hi, hz j hj]
    simp

/-! ## Claims C1 and C2 -/

/-- C1: for every row dimension `R`, every vector and every matrix addressed as
`matrix(column, row)`, `VectorByMatrixTimes(vec, matrix, R, C)` at every output column `j`
is the naive sum over `k` in `[0, R)` of `vec(k) * matrix(j, k)`, and the blocked path
(head over the 4 lanes plus tail) computes the same function as the small-size scalar
path, whatever `R` is. Arithmetic is that of an arbitrary semiring. -/
theorem VectorByMatrixTimes_eq_naiveDot {α : Type} [Semiring α] (vec : Int → α)
    (matrix : Int → Int → α) (R C : Nat) (j : Int) :
    VectorByMatrixTimes vec matrix R C j = naiveDot vec matrix R j ∧
      VectorByMatrixTimes.blockedPath vec matrix R j
        = VectorByMatrixTimes.scalarPath vec matrix R j := by
  have hs : VectorByMatrixTimes.scalarPath vec matrix R j = naiveDot vec matrix R j := by
    unfold VectorByMatrixTimes.scalarPath naiveDot
    exact hsum_rdom_zero R _
  refine ⟨?_, blockedPath_eq_scalarPath vec matrix R j⟩
  unfold VectorByMatrixTimes
  split
  · exact hs
  · rw [blockedPath_eq_scalarPath, hs]

/-- C2: for every `N` and every lane width `W ≥ 1`, the indices `lane + k * W`
(`lane` in `[0, W)`, `k` in `[0, N / W)`) of the head together with the indices
`(N / W) * W + t` (`t` in `[0, N % W)`) of the tail are a rearrangement of
`0, 1, ..., N - 1`: no index is visited twice, and an index is visited exactly when it
lies in `[0, N)`. -/
theorem blockedIndices_partition (W N : Nat) (_hW : 1 ≤ W) :
    List.Perm (blockedIndices W N) (rdom 0 N) ∧
      (blockedIndices W N).Nodup ∧
      (∀ x : Int, x ∈ blockedIndices W N ↔ 0 ≤ x ∧ x < N) ∧
      (∀ x : Int, (blockedIndices W N).count x = if 0 ≤ x ∧ x < N then 1 else 0) := by
  have hp := blockedIndices_perm W N
  have hnd : (blockedIndices W N).Nodup := hp.nodup_iff.2 (nodup_rdom 0 N)
  have hmem : ∀ x : Int, x ∈ blockedIndices W N ↔ 0 ≤ x ∧ x < N := by
    intro x
    rw [hp.mem_iff, mem_rdom]
    simp
  refine ⟨hp, hnd, hmem, ?_⟩
  intro x
  by_cases hx : 0 ≤ x ∧ x < N
  · rw [if_pos hx]
    exact List.count_eq_one_of_mem hnd ((hmem x).2 hx)
  · rw [if_neg hx]
    exact List.count_eq_zero_of_not_mem (fun h => hx ((hmem x).1 h))

/-- Witness of C2 at lane width 4 and `N = 11` (two full blocks and a tail of three). -/
theorem blockedIndices_partition_witness :
    1 ≤ 4 ∧ List.Perm (blockedIndices 4 11) (rdom 0 11) ∧
      (blockedIndices 4 11).Nodup ∧
      (∀ x : Int, x ∈ blockedIndices 4 11 ↔ 0 ≤ x ∧ x < (11 : Nat)) ∧
      (∀ x : Int, (blockedIndices 4 11).count x = if 0 ≤ x ∧ x < (11 : Nat) then 1 else 0) :=
  ⟨by decide, blockedIndices_partition 4 11 (by decide)⟩

/-! ## Claims C3 to C10: the quantization pipeline -/

/-- C3 (the code at the failing input): with `Type = float` and the vector `[-1, -2]`
the scan of `Quantize` returns `(-2, FLT_MIN)`, because the maximum lanes are seeded with
`std::numeric_limits<float>::min() = 2^-126 > 0`; the smallest and largest elements are
`-2` and `-1`. -/
theorem minMax_float32_negative_vector :
    Quantize.minMax float32 (ofBuffer [-1, -2]) 2 = (-2, 1 / 2 ^ 126) ∧
      (smallest (ofBuffer [-1, -2]) 2, largest (ofBuffer [-1, -2]) 2) = (-2, -1) ∧
      Quantize.minMax float32 (ofBuffer [-1, -2]) 2
        ≠ (smallest (ofBuffer [-1, -2]) 2, largest (ofBuffer [-1, -2]) 2) := by
  have h1 : Quantize.minMax float32 (ofBuffer [-1, -2]) 2 = (-2, 1 / 2 ^ 126) := by
    norm_num [Quantize.minMax, Quantize.minMaxHead, Quantize.minMaxTail, hminimum, hmaximum,
      rdom, ofBuffer, float32, c_VectorizationWidth, List.range_succ]
  have h2 : (smallest (ofBuffer [-1, -2]) 2, largest (ofBuffer [-1, -2]) 2) = (-2, -1) := by
    norm_num [smallest, largest, ofBuffer, List.range_succ]
  refine ⟨h1, h2, ?_⟩
  rw [h1, h2]
  norm_num

/-- C4 (the code at the failing input): with `Type = float`, `QuantizedType = int8_t`,
no reserved bits and the vector `[127.5, -3.25]`, `inverseQStep` is `1` and the code turns
the element `-3.25` into `trunc(-3.25 + 127 + 1.5 - 128) = trunc(-2.75) = -2`, whereas the
formula with the cast before the subtraction gives `trunc(125.25) - 128 = -3`; the code's
value is `1.25` away from `v * inverseQStep`. -/
theorem quantizedInt32_truncates_after_subtraction :
    Quantize.inverseQStep float32 int8 (ofBuffer [255 / 2, -13 / 4]) 2 0 = some 1 ∧
      Quantize.quantizedInt32 float32 int8 (ofBuffer [255 / 2, -13 / 4]) 2 0 1 = some (-2) ∧
      Quantize.specQuantized float32 int8 (ofBuffer [255 / 2, -13 / 4]) 2 0 1 = some (-3) ∧
      ¬ (|((-2 : Int) : ℚ) - ofBuffer [255 / 2, -13 / 4] 1 * 1| ≤ 1 / 2) := by
  have ha : Quantize.absMax float32 (ofBuffer [255 / 2, -13 / 4]) 2 0 = 255 / 2 := by
    norm_num [Quantize.absMax, shiftLeftOne, wrapSigned, Quantize.minMax,
      Quantize.minMaxHead, Quantize.minMaxTail, hminimum, hmaximum, rdom, ofBuffer, float32,
      c_VectorizationWidth, List.range_succ]
  have hM : ((int8.maxValue : Int) : ℚ) = 127 := by
    norm_num [NarrowType.maxValue, int8]
  have hM' : int8.maxValue = 127 := by
    norm_num [NarrowType.maxValue, int8]
  have hv : ofBuffer [255 / 2, -13 / 4] 1 = -13 / 4 := by
    norm_num [ofBuffer]
  have hinv : Quantize.inverseQStep float32 int8 (ofBuffer [255 / 2, -13 / 4]) 2 0
      = some 1 := by
    rw [inverseQStep_eq_some _ _ _ _ _ (by rw [ha]; norm_num), ha, hM]
    norm_num
  have ht1 : truncate (-13 / 4 * (((127 : ℚ) + 1 / 2) / (255 / 2)) + 1 / 2) = -2 :=
    truncate_eq_of_neg (by norm_num) (by norm_num) (by norm_num)
  have ht2 : truncate (-13 / 4 * 1 + 127 + 3 / 2) = 125 :=
    truncate_eq_of_nonneg (by norm_num) (by norm_num) (by norm_num)
  refine ⟨hinv, ?_, ?_, ?_⟩
  · rw [quantizedInt32_eq _ _ _ _ _ (by decide) (by rw [ha]; norm_num), ha, hM, hv]
    unfold castInt32
    rw [ht1]
    norm_num [wrapSigned]
  · unfold Quantize.specQuantized
    rw [hinv, hv]
    simp only [Option.map_some']
    rw [hM, hM']
    unfold castInt32
    rw [ht2]
    norm_num [wrapSigned]
  · rw [hv]
    norm_num [abs_le]

/-- C6 (counterexample): with `Type = float`, `QuantizedType = int8_t`, no reserved bits
and the vector `[127.5]`, the 32-bit integer computed for the element of largest magnitude
is `128 = narrowTypeMax + 1`, outside `[-128, 127]`, and the narrowing cast changes it to
`-128`. -/
theorem quantizedInt32_exceeds_narrow_range :
    Quantize.quantizedInt32 float32 int8 (ofBuffer [255 / 2]) 1 0 0 = some 128 ∧
      ¬ ((128 : Int) ≤ int8.maxValue) ∧
      Quantize.quantized float32 int8 (ofBuffer [255 / 2]) 1 0 0 = some (-128) := by
  have ha : Quantize.absMax float32 (ofBuffer [255 / 2]) 1 0 = 255 / 2 := by
    norm_num [Quantize.absMax, shiftLeftOne, wrapSigned, Quantize.minMax,
      Quantize.minMaxHead, Quantize.minMaxTail, hminimum, hmaximum, rdom, ofBuffer, float32,
      c_VectorizationWidth, List.range_succ]
  have hM : ((int8.maxValue : Int) : ℚ) = 127 := by
    norm_num [NarrowType.maxValue, int8]
  have hv : ofBuffer [255 / 2] 0 = 255 / 2 := by
    norm_num [ofBuffer]
  have ht : truncate (255 / 2 * (((127 : ℚ) + 1 / 2) / (255 / 2)) + 1 / 2) = 128 :=
    truncate_eq_of_nonneg (by norm_num) (by norm_num) (by norm_num)
  have h32 : Quantize.quantizedInt32 float32 int8 (ofBuffer [255 / 2]) 1 0 0 = some 128 := by
    rw [quantizedInt32_eq _ _ _ _ _ (by decide) (by rw [ha]; norm_num), ha, hM, hv]
    unfold castInt32
    rw [ht]
    norm_num [wrapSigned]
  refine ⟨h32, by norm_num [NarrowType.maxValue, int8], ?_⟩
  unfold Quantize.quantized
  rw [h32]
  norm_num [wrapSigned, int8]

/-- C6 (amended): for a vector that is not all zero, a reserved-bit count `1 ≤ B ≤ 30`, a
narrow type of 1 to 31 bits and every element (positive or negative, the element of
largest magnitude included), the 32-bit integer computed before the narrowing cast lies in
`[-(narrowTypeMax + 1), narrowTypeMax]` and the cast to the narrow type returns it
unchanged. -/
theorem quantizedInt32_fits_narrow (T : WideType) (Q : NarrowType) (v : Int → ℚ)
    (N B i : Nat) (hB1 : 1 ≤ B) (hB : B ≤ 30) (hb1 : 1 ≤ Q.bits) (hb2 : Q.bits ≤ 31)
    (hnz : ∃ k : Nat, k < N ∧ v k ≠ 0) (hi : i < N) :
    ∃ q : Int, Quantize.quantizedInt32 T Q v N B i = some q ∧
      -(Q.maxValue + 1) ≤ q ∧ q ≤ Q.maxValue ∧
      Quantize.quantized T Q v N B i = some q := by
  have hlt' : v i < Quantize.absMax T v N B :=
    lt_absMax_of_reserved T v N hB hB1 hnz hi
  obtain ⟨h32, hq, hlo, hhi⟩ := quantized_eq_truncate T Q v N hB hb1 hb2 hnz hi hlt'
  exact ⟨_, h32, by omega, hhi, hq⟩

/-- Witness of C6 (amended): `float`, `int8_t`, one reserved bit, the vector `[127.5, -3.25]`,
its element of largest magnitude. -/
theorem quantizedInt32_fits_narrow_witness :
    ∃ q : Int,
      Quantize.quantizedInt32 float32 int8 (ofBuffer [255 / 2, -13 / 4]) 2 1 ((0 : Nat) : Int)
        = some q ∧
      -(int8.maxValue + 1) ≤ q ∧ q ≤ int8.maxValue ∧
      Quantize.quantized float32 int8 (ofBuffer [255 / 2, -13 / 4]) 2 1 ((0 : Nat) : Int)
        = some q :=
  quantizedInt32_fits_narrow float32 int8 (ofBuffer [255 / 2, -13 / 4]) 2 1 0
    (by decide) (by decide) (by decide) (by decide)
    ⟨0, by decide, by norm_num [ofBuffer]⟩ (by decide)

/-- C7 (counterexample): with `Type = float`, `QuantizedType = int8_t`, no reserved bits
and the vector `[1]`, the step is `1 / 127.5` and `narrowTypeMax * step = 127 / 127.5 < 1`,
the largest magnitude of the vector. -/
theorem step_headroom_fails_without_reserved_bits :
    ¬ (max |smallest (ofBuffer [1]) 1| |largest (ofBuffer [1]) 1|
        ≤ (int8.maxValue : ℚ) * (Quantize float32 int8 (ofBuffer [1]) 1 0).2) := by
  have ha : Quantize.absMax float32 (ofBuffer [1]) 1 0 = 1 := by
    norm_num [Quantize.absMax, shiftLeftOne, wrapSigned, Quantize.minMax,
      Quantize.minMaxHead, Quantize.minMaxTail, hminimum, hmaximum, rdom, ofBuffer, float32,
      c_VectorizationWidth, List.range_succ]
  have hM : ((int8.maxValue : Int) : ℚ) = 127 := by
    norm_num [NarrowType.maxValue, int8]
  have hstep : (Quantize float32 int8 (ofBuffer [1]) 1 0).2 = 2 / 255 := by
    show Quantize.qStep float32 int8 (ofBuffer [1]) 1 0 = 2 / 255
    unfold Quantize.qStep
    rw [ha, hM]
    norm_num
  have hs : smallest (ofBuffer [1]) 1 = 1 := by
    norm_num [smallest, ofBuffer, List.range_succ]
  have hl : largest (ofBuffer [1]) 1 = 1 := by
    norm_num [largest, ofBuffer, List.range_succ]
  rw [hstep, hM, hs, hl]
  norm_num

/-- C7 (amended): for every non-empty vector, every reserved-bit count `1 ≤ B ≤ 30` and a
narrow type of at least 2 bits, the step returned by `Quantize` satisfies
`narrowTypeMax * step ≥ max(|min|, |max|)`, where `min` and `max` are the smallest and the
largest element of the vector. -/
theorem step_headroom (T : WideType) (Q : NarrowType) (v : Int → ℚ) (N B : Nat)
    (hN : 1 ≤ N) (hB1 : 1 ≤ B) (hB : B ≤ 30) (hb : 2 ≤ Q.bits) :
    max |smallest v N| |largest v N| ≤ (Q.maxValue : ℚ) * (Quantize T Q v N B).2 := by
  show _ ≤ (Q.maxValue : ℚ) * Quantize.qStep T Q v N B
  obtain ⟨i, hi, hs⟩ := smallest_mem v hN
  obtain ⟨j, hj, hl⟩ := largest_mem v hN
  have hA : max |smallest v N| |largest v N|
      ≤ max (-(Quantize.minMax T v N).1) (Quantize.minMax T v N).2 := by
    rw [← hs, ← hl]
    exact max_le (abs_le_max_neg_minMax T v N hi) (abs_le_max_neg_minMax T v N hj)
  have hA0 : 0 ≤ max (-(Quantize.minMax T v N).1) (Quantize.minMax T v N).2 :=
    (abs_nonneg _).trans (abs_le_max_neg_minMax T v N hi)
  have hM1 : (1 : ℚ) ≤ (Q.maxValue : ℚ) := by
    have h2 : (2 : Int) ^ 1 ≤ 2 ^ (Q.bits - 1) := pow_le_pow_right₀ (by norm_num) (by omega)
    have : (1 : Int) ≤ Q.maxValue := by
      unfold NarrowType.maxValue
      omega
    exact_mod_cast this
  have h2B : (2 : ℚ) ≤ 2 ^ B := by
    calc (2 : ℚ) = 2 ^ 1 := by norm_num
      _ ≤ 2 ^ B := pow_le_pow_right₀ (by norm_num) hB1
  have hc := maxValue_half_pos Q
  refine hA.trans ?_
  unfold Quantize.qStep
  rw [absMax_eq T v N hB, mul_div_assoc', le_div_iff₀ hc]
  have hfac : (Q.maxValue : ℚ) + 1 / 2 ≤ (Q.maxValue : ℚ) * 2 ^ B := by nlinarith
  calc max (-(Quantize.minMax T v N).1) (Quantize.minMax T v N).2 * ((Q.maxValue : ℚ) + 1 / 2)
      ≤ max (-(Quantize.minMax T v N).1) (Quantize.minMax T v N).2
          * ((Q.maxValue : ℚ) * 2 ^ B) := mul_le_mul_of_nonneg_left hfac hA0
    _ = (Q.maxValue : ℚ)
          * (max (-(Quantize.minMax T v N).1) (Quantize.minMax T v N).2 * 2 ^ B) := by ring

/-- Witness of C7 (amended): `float`, `int8_t`, two reserved bits, the vector
`[1, 2, 3, 4, 5]`. -/
theorem step_headroom_witness :
    max |smallest (ofBuffer [1, 2, 3, 4, 5]) 5| |largest (ofBuffer [1, 2, 3, 4, 5]) 5|
      ≤ (int8.maxValue : ℚ) * (Quantize float32 int8 (ofBuffer [1, 2, 3, 4, 5]) 5 2).2 :=
  step_headroom float32 int8 (ofBuffer [1, 2, 3, 4, 5]) 5 2
    (by decide) (by decide) (by decide) (by decide)

/-- C8: for every vector with two elements of different values and every reserved-bit
count `0 ≤ B ≤ 30`, the step returned by `Quantize` is strictly positive. -/
theorem step_pos_of_nonconstant (T : WideType) (Q : NarrowType) (v : Int → ℚ) (N B i j : Nat)
    (hB : B ≤ 30) (hi : i < N) (hj : j < N) (hne : v i ≠ v j) :
    0 < (Quantize T Q v N B).2 := by
  show 0 < Quantize.qStep T Q v N B
  by_cases h0 : v i = 0
  · refine qStep_pos T Q v N hB ⟨j, hj, fun hj0 => hne ?_⟩
    rw [h0, hj0]
  · exact qStep_pos T Q v N hB ⟨i, hi, h0⟩

/-- Witness of C8: `float`, `int8_t`, no reserved bits, the vector `[-1, -2]`. -/
theorem step_pos_of_nonconstant_witness :
    0 < (Quantize float32 int8 (ofBuffer [-1, -2]) 2 0).2 :=
  step_pos_of_nonconstant float32 int8 (ofBuffer [-1, -2]) 2 0 0 1
    (by decide) (by decide) (by decide) (by norm_num [ofBuffer])

/-- C9 (counterexample): with 31 reserved bits the 32-bit expression `1 << 31` is
`-2^31`, so for the vector `[1]` the computed `absMax` is `-2147483648`, not
`max(-min, max) * 2^31 = 2147483648`. -/
theorem absMax_wraps_at_31_reserved_bits :
    Quantize.absMax float32 (ofBuffer [1]) 1 31 = -2147483648 ∧
      max (-(Quantize.minMax float32 (ofBuffer [1]) 1).1)
          (Quantize.minMax float32 (ofBuffer [1]) 1).2 * 2 ^ 31 = 2147483648 ∧
      Quantize.absMax float32 (ofBuffer [1]) 1 31
        ≠ max (-(Quantize.minMax float32 (ofBuffer [1]) 1).1)
            (Quantize.minMax float32 (ofBuffer [1]) 1).2 * 2 ^ 31 := by
  have hmm : Quantize.minMax float32 (ofBuffer [1]) 1 = (1, 1) := by
    norm_num [Quantize.minMax, Quantize.minMaxHead, Quantize.minMaxTail, hminimum, hmaximum,
      rdom, ofBuffer, float32, c_VectorizationWidth, List.range_succ]
  have hs : shiftLeftOne 31 = -2147483648 := by
    norm_num [shiftLeftOne, wrapSigned]
  have h1 : Quantize.absMax float32 (ofBuffer [1]) 1 31 = -2147483648 := by
    unfold Quantize.absMax
    rw [hmm, hs]
    norm_num
  have h2 : max (-(Quantize.minMax float32 (ofBuffer [1]) 1).1)
      (Quantize.minMax float32 (ofBuffer [1]) 1).2 * 2 ^ 31 = 2147483648 := by
    rw [hmm]
    norm_num
  refine ⟨h1, h2, ?_⟩
  rw [h1, h2]
  norm_num

/-- C9 (amended): for every vector and every reserved-bit count `0 ≤ B ≤ 30`, the
`absMax` computed by `Quantize` equals `max(-min, max) * 2^B`, where `(min, max)` is the
scan result, and the returned step equals `absMax / (narrowTypeMax + 0.5)`. -/
theorem absMax_and_step_formula (T : WideType) (Q : NarrowType) (v : Int → ℚ) (N B : Nat)
    (hB : B ≤ 30) :
    Quantize.absMax T v N B
        = max (-(Quantize.minMax T v N).1) (Quantize.minMax T v N).2 * 2 ^ B ∧
      (Quantize T Q v N B).2 = Quantize.absMax T v N B / ((Q.maxValue : ℚ) + 1 / 2) :=
  ⟨absMax_eq T v N hB, rfl⟩

/-- Witness of C9 (amended): `float`, `int8_t`, two reserved bits, the vector
`[1, 2, 3, 4, 5]`. -/
theorem absMax_and_step_formula_witness :
    Quantize.absMax float32 (ofBuffer [1, 2, 3, 4, 5]) 5 2
        = max (-(Quantize.minMax float32 (ofBuffer [1, 2, 3, 4, 5]) 5).1)
            (Quantize.minMax float32 (ofBuffer [1, 2, 3, 4, 5]) 5).2 * 2 ^ 2 ∧
      (Quantize float32 int8 (ofBuffer [1, 2, 3, 4, 5]) 5 2).2
        = Quantize.absMax float32 (ofBuffer [1, 2, 3, 4, 5]) 5 2
            / ((int8.maxValue : ℚ) + 1 / 2) :=
  absMax_and_step_formula float32 int8 (ofBuffer [1, 2, 3, 4, 5]) 5 2 (by decide)

/-- C10 (the code at the failing input): with `Type = float` and the all-zero vector `[0]`
the maximum lanes keep their seed `std::numeric_limits<float>::min() = 2^-126`, so the
computed `absMax` is `2^-126`, not `0`; the step is not `0`, `inverseQStep` is defined and
the element is quantized to `0`. -/
theorem absMax_float32_zero_vector :
    (∀ i : Nat, i < 1 → ofBuffer [0] (i : Int) = 0) ∧
      Quantize.absMax float32 (ofBuffer [0]) 1 0 = 1 / 2 ^ 126 ∧
      Quantize.absMax float32 (ofBuffer [0]) 1 0 ≠ 0 ∧
      (Quantize float32 int8 (ofBuffer [0]) 1 0).2 ≠ 0 ∧
      (Quantize.inverseQStep float32 int8 (ofBuffer [0]) 1 0).isSome = true ∧
      (Quantize float32 int8 (ofBuffer [0]) 1 0).1 0 = some 0 := by
  have ha : Quantize.absMax float32 (ofBuffer [0]) 1 0 = 1 / 2 ^ 126 := by
    norm_num [Quantize.absMax, shiftLeftOne, wrapSigned, Quantize.minMax,
      Quantize.minMaxHead, Quantize.minMaxTail, hminimum, hmaximum, rdom, ofBuffer, float32,
      c_VectorizationWidth, List.range_succ]
  have ha0 : Quantize.absMax float32 (ofBuffer [0]) 1 0 ≠ 0 := by
    rw [ha]
    norm_num
  have hv : ofBuffer [0] 0 = 0 := by
    norm_num [ofBuffer]
  refine ⟨?_, ha, ha0, ?_, ?_, ?_⟩
  · intro i hi
    simp [ofBuffer]
  · show Quantize.qStep float32 int8 (ofBuffer [0]) 1 0 ≠ 0
    unfold Quantize.qStep
    exact div_ne_zero ha0 (maxValue_half_pos int8).ne'
  · rw [inverseQStep_eq_some _ _ _ _ _ ha0]
    rfl
  · show Quantize.quantized float32 int8 (ofBuffer [0]) 1 0 0 = some 0
    unfold Quantize.quantized
    rw [quantizedInt32_eq _ _ _ _ _ (by decide) ha0, hv]
    have ht : truncate (0 * ((((int8.maxValue : Int) : ℚ) + 1 / 2)
        / Quantize.absMax float32 (ofBuffer [0]) 1 0) + 1 / 2) = 0 :=
      truncate_eq_of_nonneg (by norm_num) (by norm_num) (by norm_num)
    unfold castInt32
    rw [ht]
    norm_num [wrapSigned, int8]

/-! ## Lemmas on the 32-bit accumulation of `VectorByMatrixTimesQuantized` -/

theorem VectorByMatrixTimes_eq_sum {α : Type} [Semiring α] (vec : Int → α)
    (matrix : Int → Int → α) (R C : Nat) (j : Int) :
    VectorByMatrixTimes vec matrix R C j
      = ∑ k in Finset.range R, vec (k : Int) * matrix j (k : Int) := by
  have hs : VectorByMatrixTimes.scalarPath vec matrix R j
      = ∑ k in Finset.range R, vec (k : Int) * matrix j (k : Int) := by
    unfold VectorByMatrixTimes.scalarPath
    exact hsum_rdom_zero R _
  unfold VectorByMatrixTimes
  split
  · exact hs
  · rw [blockedPath_eq_scalarPath, hs]

theorem wrapSigned_emod (w : Nat) (x : Int) : wrapSigned w (x % 2 ^ w) = wrapSigned w x := by
  unfold wrapSigned
  rw [Int.emod_add_emod]

theorem toInt32_intCast (z : Int) : toInt32 ((z : Int) : ZMod (2 ^ 32)) = wrapSigned 32 z := by
  unfold toInt32
  rw [ZMod.val_intCast]
  have h : (((2 ^ 32 : Nat) : Int)) = (2 : Int) ^ 32 := by norm_num
  rw [h]
  exact wrapSigned_emod 32 z

/-- The 32-bit result of the integer product is the exact sum wrapped to 32 bits. -/
theorem quantized_eq_wrapSigned_sum (vec0 : Int → Int) (matrix0 : Int → Int → Int)
    (R C : Nat) (j : Int) :
    VectorByMatrixTimesQuantized.quantized vec0 matrix0 R C j
      = wrapSigned 32
          (∑ k in Finset.range R,
            VectorByMatrixTimesQuantized.widen vec0 (k : Int) * matrix0 j (k : Int)) := by
  unfold VectorByMatrixTimesQuantized.quantized
  rw [VectorByMatrixTimes_eq_sum, ← toInt32_intCast]
  congr 1
  push_cast
  rfl

/-- When the widened values and the exact sum fit in 32 bits, the 32-bit result is the
exact sum. -/
theorem quantized_eq_sum_of_fits (vec0 : Int → Int) (matrix0 : Int → Int → Int)
    (R C : Nat) (j : Int)
    (hvec : ∀ k : Nat, k < R → -(2 ^ 31) ≤ vec0 k ∧ vec0 k < 2 ^ 31)
    (hsum : -(2 ^ 31) ≤ ∑ k in Finset.range R, vec0 (k : Int) * matrix0 j (k : Int) ∧
      ∑ k in Finset.range R, vec0 (k : Int) * matrix0 j (k : Int) < 2 ^ 31) :
    VectorByMatrixTimesQuantized.quantized vec0 matrix0 R C j
      = ∑ k in Finset.range R, vec0 (k : Int) * matrix0 j (k : Int) := by
  rw [quantized_eq_wrapSigned_sum]
  have hw : ∑ k in Finset.range R,
      VectorByMatrixTimesQuantized.widen vec0 (k : Int) * matrix0 j (k : Int)
      = ∑ k in Finset.range R, vec0 (k : Int) * matrix0 j (k : Int) := by
    refine Finset.sum_congr rfl (fun k hk => ?_)
    have hk' := hvec k (Finset.mem_range.1 hk)
    unfold VectorByMatrixTimesQuantized.widen
    rw [wrapSigned_eq_self (by norm_num) (by norm_num; omega) (by norm_num; omega)]
  rw [hw]
  exact wrapSigned_eq_self (by norm_num) (by norm_num; omega) (by norm_num; omega)

/-! ## Lemmas on the rounding of non-negative elements and on magnitudes -/

theorem shiftLeftOne_31 : shiftLeftOne 31 = -(2 ^ 31) := by
  norm_num [shiftLeftOne, wrapSigned]

theorem max_neg_minMax_pos (T : WideType) (v : Int → ℚ) (N : Nat)
    (hnz : ∃ k : Nat, k < N ∧ v k ≠ 0) :
    0 < max (-(Quantize.minMax T v N).1) (Quantize.minMax T v N).2 := by
  obtain ⟨k, hk, hvk⟩ := hnz
  exact (abs_pos.2 hvk).trans_le (abs_le_max_neg_minMax T v N hk)

/-- With at most 31 reserved bits and a vector that is not all zero, `absMax` is not zero
and the scaled value of a non-negative element satisfies `0 ≤ v * inverseQStep + 1/2 < 2^31`. -/
theorem scaled_nonneg_bounds (T : WideType) (Q : NarrowType) (v : Int → ℚ) (N : Nat)
    {B : Nat} (hB : B ≤ 31) (hb : Q.bits ≤ 31) (hnz : ∃ k : Nat, k < N ∧ v k ≠ 0)
    {i : Nat} (hi : i < N) (hv : 0 ≤ v i) :
    Quantize.absMax T v N B ≠ 0 ∧
      0 ≤ v i * (((Q.maxValue : ℚ) + 1 / 2) / Quantize.absMax T v N B) + 1 / 2 ∧
      v i * (((Q.maxValue : ℚ) + 1 / 2) / Quantize.absMax T v N B) + 1 / 2 < 2 ^ 31 := by
  have hc := maxValue_half_pos Q
  have hM : (Q.maxValue : ℚ) < 2 ^ 30 := by exact_mod_cast maxValue_lt Q hb
  rcases Nat.lt_or_ge B 31 with hlt | hge
  · have hB30 : B ≤ 30 := by omega
    have hpos := absMax_pos T v N hB30 hnz
    have habs := abs_le_absMax T v N hB30 hi
    have hle : v i ≤ Quantize.absMax T v N B := (le_abs_self _).trans habs
    have hrw : v i * (((Q.maxValue : ℚ) + 1 / 2) / Quantize.absMax T v N B)
        = (v i / Quantize.absMax T v N B) * ((Q.maxValue : ℚ) + 1 / 2) := by
      rw [mul_div_assoc', div_mul_eq_mul_div]
    have h0 : 0 ≤ v i / Quantize.absMax T v N B := div_nonneg hv hpos.le
    have h1 : v i / Quantize.absMax T v N B ≤ 1 := (div_le_one hpos).2 hle
    refine ⟨hpos.ne', ?_, ?_⟩
    · rw [hrw]
      have := mul_nonneg h0 hc.le
      linarith
    · rw [hrw]
      have : (v i / Quantize.absMax T v N B) * ((Q.maxValue : ℚ) + 1 / 2)
          ≤ 1 * ((Q.maxValue : ℚ) + 1 / 2) := mul_le_mul_of_nonneg_right h1 hc.le
      norm_num at this ⊢
      linarith
  · have hB31 : B = 31 := by omega
    subst hB31
    have hA := max_neg_minMax_pos T v N hnz
    have hvA : v i ≤ max (-(Quantize.minMax T v N).1) (Quantize.minMax T v N).2 :=
      (le_abs_self _).trans (abs_le_max_neg_minMax T v N hi)
    have ha : Quantize.absMax T v N 31
        = -(max (-(Quantize.minMax T v N).1) (Quantize.minMax T v N).2 * 2 ^ 31) := by
      unfold Quantize.absMax
      rw [shiftLeftOne_31]
      push_cast
      ring
    set A : ℚ := max (-(Quantize.minMax T v N).1) (Quantize.minMax T v N).2 with hAdef
    have hrw : v i * (((Q.maxValue : ℚ) + 1 / 2) / Quantize.absMax T v N 31)
        = -((v i / A) * (((Q.maxValue : ℚ) + 1 / 2) / 2 ^ 31)) := by
      rw [ha, div_neg, mul_neg, div_mul_div_comm, ← mul_div_assoc]
    have h0 : 0 ≤ v i / A := div_nonneg hv hA.le
    have h1 : v i / A ≤ 1 := (div_le_one hA).2 hvA
    have hsmall : ((Q.maxValue : ℚ) + 1 / 2) / 2 ^ 31 < 1 / 2 := by
      have hM' : (Q.maxValue : ℚ) ≤ 2 ^ 30 - 1 := by
        have h := maxValue_lt Q hb
        have h' : Q.maxValue ≤ 2 ^ 30 - 1 := by omega
        exact_mod_cast h'
      rw [div_lt_iff₀ (by positivity)]
      norm_num at hM' ⊢
      linarith
    have hsmall0 : 0 ≤ ((Q.maxValue : ℚ) + 1 / 2) / 2 ^ 31 := div_nonneg hc.le (by positivity)
    have hprod0 : 0 ≤ (v i / A) * (((Q.maxValue : ℚ) + 1 / 2) / 2 ^ 31) :=
      mul_nonneg h0 hsmall0
    have hprod1 : (v i / A) * (((Q.maxValue : ℚ) + 1 / 2) / 2 ^ 31)
        ≤ 1 * (((Q.maxValue : ℚ) + 1 / 2) / 2 ^ 31) :=
      mul_le_mul_of_nonneg_right h1 hsmall0
    refine ⟨?_, ?_, ?_⟩
    · rw [ha]
      have : 0 < A * 2 ^ 31 := by positivity
      linarith
    · rw [hrw]
      linarith
    · rw [hrw]
      norm_num at hprod0 ⊢
      linarith

/-- The scaled value of any element is at most `2^(K-1-B)` in magnitude. -/
theorem abs_scaled_le_pow (T : WideType) (Q : NarrowType) (v : Int → ℚ) (N : Nat)
    {B : Nat} (hb1 : 1 ≤ Q.bits) (hb2 : Q.bits ≤ 31) (hB : B + 1 ≤ Q.bits)
    (hnz : ∃ k : Nat, k < N ∧ v k ≠ 0) {i : Nat} (hi : i < N) :
    |v i * (((Q.maxValue : ℚ) + 1 / 2) / Quantize.absMax T v N B)|
      ≤ 2 ^ (Q.bits - 1 - B) := by
  have hB30 : B ≤ 30 := by omega
  have hpos := absMax_pos T v N hB30 hnz
  have hc := maxValue_half_pos Q
  have hmul := abs_mul_le_absMax T v N hB30 hi
  have hM : (Q.maxValue : ℚ) + 1 = 2 ^ (Q.bits - 1 - B) * 2 ^ B := by
    rw [← pow_add, Nat.sub_add_cancel (by omega)]
    unfold NarrowType.maxValue
    push_cast
    ring
  have hP : (0 : ℚ) < 2 ^ (Q.bits - 1 - B) := by positivity
  rw [abs_mul, abs_of_pos (div_pos hc hpos), mul_div_assoc', div_le_iff₀ hpos]
  have h0 : 0 ≤ |v i| := abs_nonneg _
  calc |v i| * ((Q.maxValue : ℚ) + 1 / 2)
      ≤ |v i| * ((Q.maxValue : ℚ) + 1) := mul_le_mul_of_nonneg_left (by linarith) h0
    _ = 2 ^ (Q.bits - 1 - B) * (|v i| * 2 ^ B) := by rw [hM]; ring
    _ ≤ 2 ^ (Q.bits - 1 - B) * Quantize.absMax T v N B :=
        mul_le_mul_of_nonneg_left hmul hP.le

/-! ## Lemmas on the magnitude of integer partial sums -/

theorem abs_hsum_le (l : List Int) (f : Int → Int) (c : Int) (h : ∀ k ∈ l, |f k| ≤ c) :
    |hsum l f| ≤ (l.length : Int) * c := by
  rw [hsum_eq_sum_map]
  induction l with
  | nil => simp
  | cons a l ih =>
    have ha : |f a| ≤ c := h a (List.mem_cons_self a l)
    have hl := ih (fun k hk => h k (List.mem_cons_of_mem a hk))
    simp only [List.map_cons, List.sum_cons, List.length_cons]
    have htri := abs_add (f a) (List.map f l).sum
    push_cast
    linarith

/-- A product of an 8-bit vector value, widened, and an 8-bit matrix value is at most
`2^14` in magnitude. -/
theorem abs_widen_mul_le (qv : Int → Int) (qm : Int → Int → Int) (R : Nat) (j : Int)
    (hv : ∀ k : Nat, k < R → -128 ≤ qv k ∧ qv k ≤ 127)
    (hm : ∀ k : Nat, k < R → -128 ≤ qm j k ∧ qm j k ≤ 127)
    {k : Int} (hk0 : 0 ≤ k) (hk : k < R) :
    |VectorByMatrixTimesQuantized.widen qv k * qm j k| ≤ 16384 := by
  have hkn : ((k.toNat : Nat) : Int) = k := Int.toNat_of_nonneg hk0
  have hlt : k.toNat < R := by omega
  have h1 := hv k.toNat hlt
  have h2 := hm k.toNat hlt
  rw [hkn] at h1 h2
  unfold VectorByMatrixTimesQuantized.widen
  rw [wrapSigned_eq_self (by norm_num) (by norm_num; omega) (by norm_num; omega), abs_mul]
  have a1 : |qv k| ≤ 128 := abs_le.2 ⟨by omega, by omega⟩
  have a2 : |qm j k| ≤ 128 := abs_le.2 ⟨by omega, by omega⟩
  calc |qv k| * |qm j k| ≤ 128 * 128 :=
        mul_le_mul a1 a2 (abs_nonneg _) (by norm_num)
    _ = 16384 := by norm_num

/-- Any accumulation of at most `R < 2^17` such products, over indices in `[0, R)`, stays
inside the signed 32-bit range. -/
theorem hsum_products_fit (qv : Int → Int) (qm : Int → Int → Int) (R : Nat) (j : Int)
    (hR : R < 2 ^ 17)
    (hv : ∀ k : Nat, k < R → -128 ≤ qv k ∧ qv k ≤ 127)
    (hm : ∀ k : Nat, k < R → -128 ≤ qm j k ∧ qm j k ≤ 127)
    (dom : List Int) (hdom : ∀ k ∈ dom, 0 ≤ k ∧ k < (R : Int)) (hlen : dom.length ≤ R) :
    -(2 ^ 31) ≤ hsum dom (fun k => VectorByMatrixTimesQuantized.widen qv k * qm j k) ∧
      hsum dom (fun k => VectorByMatrixTimesQuantized.widen qv k * qm j k) < 2 ^ 31 := by
  have h := abs_hsum_le dom (fun k => VectorByMatrixTimesQuantized.widen qv k * qm j k) 16384
    (fun k hk => abs_widen_mul_le qv qm R j hv hm (hdom k hk).1 (hdom k hk).2)
  have hlen' : (dom.length : Int) ≤ 131071 := by
    have : dom.length ≤ 131071 := by
      norm_num at hR
      omega
    exact_mod_cast this
  rw [abs_le] at h
  constructor
  · norm_num at hlen' ⊢
    omega
  · norm_num at hlen' ⊢
    omega

theorem length_blockedIndices (W N : Nat) : (blockedIndices W N).length = N := by
  rw [(blockedIndices_perm W N).length_eq]
  simp [rdom]

/-! ## Lemmas on the flattened view of a matrix -/

theorem flat_index_lt {rows columns x y : Nat} (hx : x < columns) (hy : y < rows) :
    x * rows + y < rows * columns := by
  have h1 : x * rows + rows ≤ columns * rows := by
    have : (x + 1) * rows ≤ columns * rows := Nat.mul_le_mul_right rows hx
    linarith [Nat.succ_mul x rows]
  rw [Nat.mul_comm rows columns]
  omega

theorem asVector_flat (matrix : Int → Int → ℚ) {rows : Nat} (x : Int) {y : Nat}
    (hy : y < rows) :
    QuantizeMatrix.asVector matrix rows (x * (rows : Int) + (y : Int)) = matrix x (y : Int) := by
  have hr : (0 : Int) < (rows : Int) := by exact_mod_cast Nat.lt_of_le_of_lt (Nat.zero_le y) hy
  have hy0 : (0 : Int) ≤ (y : Int) := Int.natCast_nonneg y
  have hyr : (y : Int) < (rows : Int) := by exact_mod_cast hy
  unfold QuantizeMatrix.asVector
  rw [add_comm, Int.add_mul_ediv_right _ _ hr.ne', Int.ediv_eq_zero_of_lt hy0 hyr, zero_add,
    Int.add_mul_emod_self, Int.emod_eq_of_lt hy0 hyr]

/-- Every index of the flattened view reads an entry of the matrix. -/
theorem asVector_coords (matrix : Int → Int → ℚ) {rows columns : Nat} (hrows : 1 ≤ rows)
    {i : Nat} (hi : i < rows * columns) :
    ∃ x y : Nat, x < columns ∧ y < rows ∧
      QuantizeMatrix.asVector matrix rows (i : Int) = matrix (x : Int) (y : Int) := by
  refine ⟨i / rows, i % rows, ?_, Nat.mod_lt _ hrows, ?_⟩
  · exact Nat.div_lt_of_lt_mul hi
  · unfold QuantizeMatrix.asVector
    norm_cast

theorem le_largestAbs_iff (matrix : Int → Int → ℚ) (rows columns : Nat) (c : ℚ) :
    c ≤ largestAbs matrix rows columns ↔
      c ≤ 0 ∨ ∃ x y : Nat, x < columns ∧ y < rows ∧ c ≤ |matrix (x : Int) (y : Int)| := by
  have key : ∀ (l : List ℚ) (a : ℚ), c ≤ l.foldl max a ↔ c ≤ a ∨ ∃ b ∈ l, c ≤ b := by
    intro l
    induction l with
    | nil => simp
    | cons b l ih =>
      intro a
      simp only [List.foldl_cons, ih, le_max_iff, List.mem_cons, exists_eq_or_imp]
      tauto
  unfold largestAbs
  rw [key]
  simp only [List.mem_flatMap, List.mem_map, List.mem_range]
  constructor
  · rintro (h | ⟨b, ⟨x, hx, y, hy, rfl⟩, hb⟩)
    · exact Or.inl h
    · exact Or.inr ⟨x, y, hx, hy, hb⟩
  · rintro (h | ⟨x, y, hx, hy, hb⟩)
    · exact Or.inl h
    · exact Or.inr ⟨_, ⟨x, hx, y, hy, rfl⟩, hb⟩

theorem abs_le_largestAbs (matrix : Int → Int → ℚ) {rows columns x y : Nat}
    (hx : x < columns) (hy : y < rows) :
    |matrix (x : Int) (y : Int)| ≤ largestAbs matrix rows columns :=
  (le_largestAbs_iff matrix rows columns _).2 (Or.inr ⟨x, y, hx, hy, le_rfl⟩)

/-- For a matrix whose entries are values of the wide type and whose largest magnitude is
not below the seeds of the maximum, the scan of the flattened view gives
`max(-min, max) = largestAbs`. -/
theorem max_neg_minMax_asVector (T : WideType) (matrix : Int → Int → ℚ) {rows columns : Nat}
    (hrows : 1 ≤ rows) (hcols : 1 ≤ columns)
    (hmax : ∀ x y : Nat, x < columns → y < rows →
      matrix (x : Int) (y : Int) ≤ T.limitsMax ∧ matrix (x : Int) (y : Int) ≤ T.halideMax)
    (hseed : T.limitsMin ≤ largestAbs matrix rows columns ∧
      T.halideMin ≤ largestAbs matrix rows columns) :
    max (-(Quantize.minMax T (QuantizeMatrix.asVector matrix rows) (rows * columns)).1)
        (Quantize.minMax T (QuantizeMatrix.asVector matrix rows) (rows * columns)).2
      = largestAbs matrix rows columns := by
  have hneg : ∀ x y : Nat, x < columns → y < rows →
      -largestAbs matrix rows columns ≤ matrix (x : Int) (y : Int) := by
    intro x y hx hy
    have h1 := abs_le_largestAbs matrix hx hy
    have h2 := neg_abs_le (matrix (x : Int) (y : Int))
    linarith
  have hpos : ∀ x y : Nat, x < columns → y < rows →
      matrix (x : Int) (y : Int) ≤ largestAbs matrix rows columns := by
    intro x y hx hy
    exact (le_abs_self _).trans (abs_le_largestAbs matrix hx hy)
  refine le_antisymm (max_le ?_ ?_) ?_
  · rcases (minMax_fst_le_iff T _ _ _).1 (le_refl
        (Quantize.minMax T (QuantizeMatrix.asVector matrix rows) (rows * columns)).1)
      with h | h | ⟨i, hi, h⟩
    · have := (hmax 0 0 hcols hrows).2
      have := hneg 0 0 hcols hrows
      linarith
    · have := (hmax 0 0 hcols hrows).1
      have := hneg 0 0 hcols hrows
      linarith
    · obtain ⟨x, y, hx, hy, hxy⟩ := asVector_coords matrix hrows hi
      rw [hxy] at h
      have := hneg x y hx hy
      linarith
  · rcases (le_minMax_snd_iff T _ _ _).1 (le_refl
        (Quantize.minMax T (QuantizeMatrix.asVector matrix rows) (rows * columns)).2)
      with h | h | ⟨i, hi, h⟩
    · exact h.trans hseed.2
    · exact h.trans hseed.1
    · obtain ⟨x, y, hx, hy, hxy⟩ := asVector_coords matrix hrows hi
      rw [hxy] at h
      exact h.trans (hpos x y hx hy)
  · rcases (le_largestAbs_iff matrix rows columns _).1 le_rfl with h | ⟨x, y, hx, hy, h⟩
    · have hi : 0 * rows + 0 < rows * columns := flat_index_lt hcols hrows
      have := abs_le_max_neg_minMax T (QuantizeMatrix.asVector matrix rows) (rows * columns) hi
      exact h.trans ((abs_nonneg _).trans this)
    · have hi : x * rows + y < rows * columns := flat_index_lt hx hy
      have := abs_le_max_neg_minMax T (QuantizeMatrix.asVector matrix rows) (rows * columns) hi
      have hflat := asVector_flat matrix (x : Int) hy
      have hcast : (((x * rows + y : Nat)) : Int) = (x : Int) * (rows : Int) + (y : Int) := by
        push_cast
        ring
      rw [hcast, hflat] at this
      exact h.trans this

/-! ## Lemmas on the error of the quantized product -/

theorem roundHalfEven_le (t : ℚ) : (roundHalfEven t : ℚ) ≤ t + 1 / 2 := by
  have h1 : ((⌊t⌋ : Int) : ℚ) ≤ t := Int.floor_le t
  have h2 : t < ((⌊t⌋ : Int) : ℚ) + 1 := Int.lt_floor_add_one t
  unfold roundHalfEven
  split_ifs <;> push_cast <;> linarith

theorem le_roundHalfEven (t : ℚ) : t - 1 / 2 ≤ (roundHalfEven t : ℚ) := by
  have h1 : ((⌊t⌋ : Int) : ℚ) ≤ t := Int.floor_le t
  have h2 : t < ((⌊t⌋ : Int) : ℚ) + 1 := Int.lt_floor_add_one t
  unfold roundHalfEven
  split_ifs <;> push_cast <;> linarith

theorem roundHalfEven_intCast (n : Int) : roundHalfEven (n : ℚ) = n := by
  unfold roundHalfEven
  simp

theorem roundHalfEven_mono {s t : ℚ} (h : s ≤ t) : roundHalfEven s ≤ roundHalfEven t := by
  by_contra hlt
  have hlt' : roundHalfEven t + 1 ≤ roundHalfEven s := by omega
  have hq : (roundHalfEven t : ℚ) + 1 ≤ (roundHalfEven s : ℚ) := by exact_mod_cast hlt'
  have h1 := roundHalfEven_le s
  have h2 := le_roundHalfEven t
  have hst : s = t := by linarith
  rw [hst] at hlt
  exact hlt le_rfl

theorem roundHalfEven_nonneg {t : ℚ} (h : 0 ≤ t) : 0 ≤ roundHalfEven t := by
  have := roundHalfEven_mono h
  rwa [show ((0 : ℚ)) = ((0 : Int) : ℚ) by norm_num, roundHalfEven_intCast] at this

theorem roundHalfEven_le_two_mul {t : ℚ} (h : 0 ≤ t) : (roundHalfEven t : ℚ) ≤ 2 * t := by
  rcases lt_or_le t (1 / 2) with hlt | hge
  · have h0 : roundHalfEven t = 0 := by
      have hf : ⌊t⌋ = 0 := by
        rw [Int.floor_eq_iff]
        constructor <;> norm_num <;> linarith
      unfold roundHalfEven
      rw [hf]
      have : 2 * (t - ((0 : Int) : ℚ)) < 1 := by
        norm_num
        linarith
      rw [if_pos this]
    rw [h0]
    norm_num
    exact h
  · have := roundHalfEven_le t
    linarith

theorem ulpFloat32_pos (x : ℚ) : 0 < ulpFloat32 x := by
  unfold ulpFloat32
  positivity

theorem roundFloat32_zero : roundFloat32 0 = 0 := by
  unfold roundFloat32
  rw [zero_div, show ((0 : ℚ)) = ((0 : Int) : ℚ) by norm_num, roundHalfEven_intCast]
  simp

theorem roundFloat32_nonneg {x : ℚ} (h : 0 ≤ x) : 0 ≤ roundFloat32 x := by
  unfold roundFloat32
  have hu := ulpFloat32_pos x
  have hr : (0 : ℚ) ≤ (roundHalfEven (x / ulpFloat32 x) : ℚ) := by
    exact_mod_cast roundHalfEven_nonneg (div_nonneg h hu.le)
  exact mul_nonneg hu.le hr

theorem roundFloat32_le_two_mul {x : ℚ} (h : 0 ≤ x) : roundFloat32 x ≤ 2 * x := by
  unfold roundFloat32
  have hu := ulpFloat32_pos x
  have hr := roundHalfEven_le_two_mul (div_nonneg h hu.le)
  calc ulpFloat32 x * (roundHalfEven (x / ulpFloat32 x) : ℚ)
      ≤ ulpFloat32 x * (2 * (x / ulpFloat32 x)) := mul_le_mul_of_nonneg_left hr hu.le
    _ = 2 * x := by
        field_simp

/-- A value on the grid of its own binade is left unchanged. -/
theorem roundFloat32_of_grid (x : ℚ) (m : Int) (h : x = ulpFloat32 x * (m : ℚ)) :
    roundFloat32 x = x := by
  have hu := ulpFloat32_pos x
  have hdiv : x / ulpFloat32 x = (m : ℚ) := by
    rw [div_eq_iff hu.ne', mul_comm]
    exact h
  unfold roundFloat32
  rw [hdiv, roundHalfEven_intCast]
  exact h.symm

theorem int_log_two_eq {x : ℚ} {e : Int} (h1 : (2 : ℚ) ^ e ≤ x) (h2 : x < (2 : ℚ) ^ (e + 1)) :
    Int.log 2 x = e := by
  have hx : 0 < x := lt_of_lt_of_le (by positivity) h1
  have ha : e ≤ Int.log 2 x := (Int.zpow_le_iff_le_log (by norm_num) hx).1 (by exact_mod_cast h1)
  have hb : Int.log 2 x < e + 1 :=
    (Int.lt_zpow_iff_log_lt (by norm_num) hx).1 (by exact_mod_cast h2)
  omega

/-- The rounding of a value of the binade `[2^e, 2^(e+1))`, `e ≥ -126`. -/
theorem roundFloat32_of_binade {x : ℚ} {e : Int} (he : -126 ≤ e) (h1 : (2 : ℚ) ^ e ≤ x)
    (h2 : x < (2 : ℚ) ^ (e + 1)) :
    roundFloat32 x = (2 : ℚ) ^ (e - 23) * (roundHalfEven (x / (2 : ℚ) ^ (e - 23)) : ℚ) := by
  have hx : 0 < x := lt_of_lt_of_le (by positivity) h1
  have hu : ulpFloat32 x = (2 : ℚ) ^ (e - 23) := by
    unfold ulpFloat32
    rw [abs_of_pos hx, int_log_two_eq h1 h2, max_eq_left he]
  unfold roundFloat32
  rw [hu]

/-- Multiples of `1/2` below `2^23` are binary32 values. -/
theorem roundFloat32_half_int (z : Int) (h0 : 0 ≤ z) (h : z < 2 ^ 24) :
    roundFloat32 ((z : ℚ) / 2) = (z : ℚ) / 2 := by
  rcases eq_or_lt_of_le h0 with hz | hz
  · rw [← hz]
    simpa using roundFloat32_zero
  · have hx : (0 : ℚ) < (z : ℚ) / 2 := by
      have : (0 : ℚ) < (z : ℚ) := by exact_mod_cast hz
      linarith
    have hlo : (2 : ℚ) ^ (-1 : Int) ≤ (z : ℚ) / 2 := by
      have : (1 : ℚ) ≤ (z : ℚ) := by exact_mod_cast hz
      rw [zpow_neg_one]
      linarith
    have hhi : (z : ℚ) / 2 < (2 : ℚ) ^ (23 : Int) := by
      have : (z : ℚ) < 2 ^ 24 := by exact_mod_cast h
      norm_num at this ⊢
      linarith
    have he1 : -1 ≤ Int.log 2 ((z : ℚ) / 2) :=
      (Int.zpow_le_iff_le_log (by norm_num) hx).1 (by exact_mod_cast hlo)
    have he2 : Int.log 2 ((z : ℚ) / 2) < 23 :=
      (Int.lt_zpow_iff_log_lt (by norm_num) hx).1 (by exact_mod_cast hhi)
    have hu : ulpFloat32 ((z : ℚ) / 2)
        = (2 : ℚ) ^ (Int.log 2 ((z : ℚ) / 2) - 23) := by
      unfold ulpFloat32
      rw [abs_of_pos hx, max_eq_left (by omega)]
    obtain ⟨n, hn⟩ : ∃ n : Nat, (n : Int) = 22 - Int.log 2 ((z : ℚ) / 2) :=
      ⟨(22 - Int.log 2 ((z : ℚ) / 2)).toNat, Int.toNat_of_nonneg (by omega)⟩
    refine roundFloat32_of_grid _ (z * 2 ^ n) ?_
    rw [hu]
    have he : Int.log 2 ((z : ℚ) / 2) - 23 = -((n : Int) + 1) := by omega
    rw [he, zpow_neg, zpow_add_one₀ (by norm_num), zpow_natCast]
    push_cast
    have hp : (0 : ℚ) < 2 ^ n := by positivity
    field_simp
    ring

theorem roundFloat32_int (z : Int) (h0 : 0 ≤ z) (h : z < 2 ^ 23) :
    roundFloat32 (z : ℚ) = (z : ℚ) := by
  have := roundFloat32_half_int (2 * z) (by omega) (by omega)
  push_cast at this
  rwa [mul_div_cancel_left₀ _ (by norm_num : (2 : ℚ) ≠ 0)] at this

/-- The rounding is monotone on the non-negative values. -/
theorem roundFloat32_mono {x y : ℚ} (hx : 0 ≤ x) (h : x ≤ y) :
    roundFloat32 x ≤ roundFloat32 y := by
  rcases eq_or_lt_of_le hx with hx0 | hxpos
  · rw [← hx0, roundFloat32_zero]
    exact roundFloat32_nonneg (hx.trans h)
  · have hypos : 0 < y := lt_of_lt_of_le hxpos h
    have hlog : Int.log 2 x ≤ Int.log 2 y := Int.log_mono_right hxpos h
    have hux : ulpFloat32 x = (2 : ℚ) ^ (max (Int.log 2 x) (-126) - 23) := by
      unfold ulpFloat32
      rw [abs_of_pos hxpos]
    have huy : ulpFloat32 y = (2 : ℚ) ^ (max (Int.log 2 y) (-126) - 23) := by
      unfold ulpFloat32
      rw [abs_of_pos hypos]
    have hexy : max (Int.log 2 x) (-126) ≤ max (Int.log 2 y) (-126) :=
      max_le_max hlog le_rfl
    have hupx := ulpFloat32_pos x
    have hupy := ulpFloat32_pos y
    rcases eq_or_lt_of_le hexy with heq | hlt
    · have hu : ulpFloat32 x = ulpFloat32 y := by rw [hux, huy, heq]
      unfold roundFloat32
      rw [hu]
      have hdiv : x / ulpFloat32 y ≤ y / ulpFloat32 y := div_le_div_of_nonneg_right h hupy.le
      have hr : (roundHalfEven (x / ulpFloat32 y) : ℚ) ≤ (roundHalfEven (y / ulpFloat32 y) : ℚ) := by
        exact_mod_cast roundHalfEven_mono hdiv
      exact mul_le_mul_of_nonneg_left hr hupy.le
    · have hey : max (Int.log 2 y) (-126) = Int.log 2 y := by
        apply max_eq_left
        have : -126 ≤ max (Int.log 2 x) (-126) := le_max_right _ _
        by_contra hc
        rw [max_eq_right (by omega)] at hlt
        omega
      -- the rounding of `x` stays below the top of its binade
      have hxtop : x ≤ ulpFloat32 x * ((2 ^ 24 : Int) : ℚ) := by
        have h1 : x < (2 : ℚ) ^ (Int.log 2 x + 1) := by
          exact_mod_cast Int.lt_zpow_succ_log_self (by norm_num : 1 < 2) x
        have h2 : (2 : ℚ) ^ (Int.log 2 x + 1) ≤ (2 : ℚ) ^ (max (Int.log 2 x) (-126) + 1) :=
          zpow_le_zpow_right₀ (by norm_num) (by have := le_max_left (Int.log 2 x) (-126); omega)
        have h3 : (2 : ℚ) ^ (max (Int.log 2 x) (-126) + 1)
            = (2 : ℚ) ^ (max (Int.log 2 x) (-126) - 23) * ((2 ^ 24 : Int) : ℚ) := by
          have h24 : (((2 ^ 24 : Int) : ℚ)) = (2 : ℚ) ^ (24 : Int) := by norm_num
          rw [h24, ← zpow_add₀ (by norm_num)]
          congr 1
          ring
        rw [hux, ← h3]
        exact (h1.trans_le h2).le
      have hflx : roundFloat32 x ≤ (2 : ℚ) ^ (max (Int.log 2 x) (-126) + 1) := by
        have hdiv : x / ulpFloat32 x ≤ ((2 ^ 24 : Int) : ℚ) := by
          rw [div_le_iff₀ hupx, mul_comm]
          exact hxtop
        have hr : (roundHalfEven (x / ulpFloat32 x) : ℚ) ≤ ((2 ^ 24 : Int) : ℚ) := by
          have := roundHalfEven_mono hdiv
          rw [roundHalfEven_intCast] at this
          exact_mod_cast this
        have h3 : (2 : ℚ) ^ (max (Int.log 2 x) (-126) + 1)
            = ulpFloat32 x * ((2 ^ 24 : Int) : ℚ) := by
          rw [hux]
          have h24 : (((2 ^ 24 : Int) : ℚ)) = (2 : ℚ) ^ (24 : Int) := by norm_num
          rw [h24, ← zpow_add₀ (by norm_num)]
          congr 1
          ring
        rw [h3]
        unfold roundFloat32
        exact mul_le_mul_of_nonneg_left hr hupx.le
      -- the rounding of `y` stays above the bottom of its binade
      have hfly : (2 : ℚ) ^ (Int.log 2 y) ≤ roundFloat32 y := by
        have h1 : (2 : ℚ) ^ (Int.log 2 y) ≤ y := by
          exact_mod_cast Int.zpow_log_le_self (by norm_num : 1 < 2) hypos
        have h3 : (2 : ℚ) ^ (Int.log 2 y) = ulpFloat32 y * ((2 ^ 23 : Int) : ℚ) := by
          rw [huy, hey]
          have h23 : (((2 ^ 23 : Int) : ℚ)) = (2 : ℚ) ^ (23 : Int) := by norm_num
          rw [h23, ← zpow_add₀ (by norm_num)]
          congr 1
          ring
        have hdiv : ((2 ^ 23 : Int) : ℚ) ≤ y / ulpFloat32 y := by
          rw [le_div_iff₀ hupy, mul_comm, ← h3]
          exact h1
        have hr : ((2 ^ 23 : Int) : ℚ) ≤ (roundHalfEven (y / ulpFloat32 y) : ℚ) := by
          have := roundHalfEven_mono hdiv
          rw [roundHalfEven_intCast] at this
          exact_mod_cast this
        rw [h3]
        unfold roundFloat32
        exact mul_le_mul_of_nonneg_left hr hupy.le
      have hstep : (2 : ℚ) ^ (max (Int.log 2 x) (-126) + 1) ≤ (2 : ℚ) ^ (Int.log 2 y) :=
        zpow_le_zpow_right₀ (by norm_num) (by rw [hey] at hlt; omega)
      exact hflx.trans (hstep.trans hfly)

theorem roundHalfEven_eq {t : ℚ} (n : Int) (h1 : (n : ℚ) - 1 / 2 < t)
    (h2 : t < (n : ℚ) + 1 / 2) : roundHalfEven t = n := by
  have hle := roundHalfEven_le t
  have hge := le_roundHalfEven t
  have hlo : ((n - 1 : Int) : ℚ) < (roundHalfEven t : ℚ) := by push_cast; linarith
  have hhi : (roundHalfEven t : ℚ) < ((n + 1 : Int) : ℚ) := by push_cast; linarith
  have hlo2 : n - 1 < roundHalfEven t := by exact_mod_cast hlo
  have hhi2 : roundHalfEven t < n + 1 := by exact_mod_cast hhi
  omega

/-- With the identity in place of the rounding, the rounded pipeline is the exact one. -/
theorem quantizedInt32Rounded_id (T : WideType) (Q : NarrowType) (v : Int → ℚ) (N B : Nat)
    (index : Int) :
    Quantize.quantizedInt32Rounded (fun x => x) T Q v N B index
      = Quantize.quantizedInt32 T Q v N B index := by
  unfold Quantize.quantizedInt32Rounded Quantize.quantizedInt32 Quantize.inverseQStepRounded
    Quantize.inverseQStep Quantize.absMaxRounded Quantize.absMax
  rfl

/-- The argument of the 32-bit cast for a scaled value `0 ≤ y ≤ 2 * M + 1`, under a
rounding that is monotone on the non-negative values and keeps the multiples of `1/2` up
to `3 * M + 3`: it lies between `floor(y + 1/2)` and `floor(y + 1/2) + 1`. -/
theorem rounded_cast_argument (fl : ℚ → ℚ) (M : Int) (hM : 0 ≤ M)
    (hmono : ∀ x y : ℚ, 0 ≤ x → x ≤ y → fl x ≤ fl y)
    (hfix : ∀ z : Int, 0 ≤ z → z ≤ 6 * M + 6 → fl ((z : ℚ) / 2) = (z : ℚ) / 2)
    {y : ℚ} (hy0 : 0 ≤ y) (hy1 : y ≤ 2 * (M : ℚ) + 1) :
    ((⌊y + 1 / 2⌋ : Int) : ℚ)
        ≤ fl (fl (fl (fl y + fl (M : ℚ)) + 3 / 2) - fl ((1 + M : Int) : ℚ)) ∧
      fl (fl (fl (fl y + fl (M : ℚ)) + 3 / 2) - fl ((1 + M : Int) : ℚ))
        ≤ ((⌊y + 1 / 2⌋ : Int) : ℚ) + 1 := by
  have hint : ∀ n : Int, 0 ≤ n → n ≤ 3 * M + 3 → fl (n : ℚ) = (n : ℚ) := by
    intro n h0 h1
    have h := hfix (2 * n) (by omega) (by omega)
    push_cast at h
    rwa [mul_div_cancel_left₀ _ (by norm_num : (2 : ℚ) ≠ 0)] at h
  have hhalf : ∀ n : Int, 0 ≤ n → n ≤ 3 * M + 2 →
      fl ((n : ℚ) + 1 / 2) = (n : ℚ) + 1 / 2 := by
    intro n h0 h1
    have h := hfix (2 * n + 1) (by omega) (by omega)
    push_cast at h
    have e : (2 * (n : ℚ) + 1) / 2 = (n : ℚ) + 1 / 2 := by ring
    rwa [e] at h
  have hfl0 : fl 0 = 0 := by simpa using hint 0 le_rfl (by omega)
  have hMq : (0 : ℚ) ≤ (M : ℚ) := by exact_mod_cast hM
  obtain ⟨k, hk⟩ : ∃ k : Int, k = ⌊y + 1 / 2⌋ := ⟨_, rfl⟩
  rw [← hk]
  have hk0 : 0 ≤ k := by rw [hk]; exact Int.floor_nonneg.2 (by linarith)
  have hfle : (k : ℚ) ≤ y + 1 / 2 := by rw [hk]; exact Int.floor_le _
  have hlt : y + 1 / 2 < (k : ℚ) + 1 := by rw [hk]; exact Int.lt_floor_add_one _
  have hk1 : k ≤ 2 * M + 1 := by
    have h : (k : ℚ) < ((2 * M + 2 : Int) : ℚ) := by push_cast; linarith
    have h2 : k < 2 * M + 2 := by exact_mod_cast h
    omega
  rw [hint M hM (by omega), hint (1 + M) (by omega) (by omega)]
  -- upper bounds, stage by stage
  have ha0 : 0 ≤ fl y := by
    have h := hmono 0 y le_rfl hy0
    rwa [hfl0] at h
  have ha1 : fl y ≤ (k : ℚ) + 1 / 2 := by
    have h := hmono y ((k : ℚ) + 1 / 2) hy0 (by linarith)
    rwa [hhalf k hk0 (by omega)] at h
  have hb0 : (M : ℚ) ≤ fl (fl y + (M : ℚ)) := by
    have h := hmono (M : ℚ) (fl y + (M : ℚ)) hMq (by linarith)
    rwa [hint M hM (by omega)] at h
  have hb1 : fl (fl y + (M : ℚ)) ≤ ((k + M : Int) : ℚ) + 1 / 2 := by
    have h := hmono (fl y + (M : ℚ)) (((k + M : Int) : ℚ) + 1 / 2) (by linarith)
      (by push_cast; linarith)
    rwa [hhalf (k + M) (by omega) (by omega)] at h
  have hc1 : fl (fl (fl y + (M : ℚ)) + 3 / 2) ≤ ((k + M + 2 : Int) : ℚ) := by
    have h := hmono (fl (fl y + (M : ℚ)) + 3 / 2) ((k + M + 2 : Int) : ℚ) (by linarith)
      (by push_cast at hb1 ⊢; linarith)
    rwa [hint (k + M + 2) (by omega) (by omega)] at h
  -- lower bounds: the two cases `k = 0` and `1 ≤ k`
  have hc0 : ((k + M + 1 : Int) : ℚ) ≤ fl (fl (fl y + (M : ℚ)) + 3 / 2) ∨
      (k = 0 ∧ ((M + 1 : Int) : ℚ) + 1 / 2 ≤ fl (fl (fl y + (M : ℚ)) + 3 / 2)) := by
    rcases eq_or_lt_of_le hk0 with h0 | hpos
    · right
      refine ⟨h0.symm, ?_⟩
      have h := hmono (((M + 1 : Int) : ℚ) + 1 / 2) (fl (fl y + (M : ℚ)) + 3 / 2)
        (by push_cast; linarith) (by push_cast; linarith)
      rwa [hhalf (M + 1) (by omega) (by omega)] at h
    · left
      have hk1q : (1 : ℚ) ≤ (k : ℚ) := by exact_mod_cast hpos
      have hya : ((k - 1 : Int) : ℚ) + 1 / 2 ≤ fl y := by
        have h := hmono (((k - 1 : Int) : ℚ) + 1 / 2) y (by push_cast; linarith)
          (by push_cast; linarith)
        rwa [hhalf (k - 1) (by omega) (by omega)] at h
      have hyb : ((k - 1 + M : Int) : ℚ) + 1 / 2 ≤ fl (fl y + (M : ℚ)) := by
        have h := hmono (((k - 1 + M : Int) : ℚ) + 1 / 2) (fl y + (M : ℚ))
          (by push_cast; linarith) (by push_cast at hya ⊢; linarith)
        rwa [hhalf (k - 1 + M) (by omega) (by omega)] at h
      have h := hmono ((k + M + 1 : Int) : ℚ) (fl (fl y + (M : ℚ)) + 3 / 2)
        (by push_cast; linarith) (by push_cast at hyb ⊢; linarith)
      rwa [hint (k + M + 1) (by omega) (by omega)] at h
  have hkq : (0 : ℚ) ≤ (k : ℚ) := by exact_mod_cast hk0
  constructor
  · rcases hc0 with h | ⟨h0, h⟩
    · have h2 := hmono (k : ℚ) (fl (fl (fl y + (M : ℚ)) + 3 / 2) - ((1 + M : Int) : ℚ)) hkq
        (by push_cast at h ⊢; linarith)
      rwa [hint k hk0 (by omega)] at h2
    · have h2 := hmono (((0 : Int) : ℚ) + 1 / 2)
        (fl (fl (fl y + (M : ℚ)) + 3 / 2) - ((1 + M : Int) : ℚ)) (by norm_num)
        (by push_cast at h ⊢; linarith)
      rw [hhalf 0 le_rfl (by omega)] at h2
      rw [h0]
      push_cast at h2 ⊢
      linarith
  · have hd0 : (0 : ℚ) ≤ fl (fl (fl y + (M : ℚ)) + 3 / 2) - ((1 + M : Int) : ℚ) := by
      rcases hc0 with h | ⟨_, h⟩
      · push_cast at h ⊢
        linarith
      · push_cast at h ⊢
        linarith
    have h2 := hmono (fl (fl (fl y + (M : ℚ)) + 3 / 2) - ((1 + M : Int) : ℚ))
      ((k + 1 : Int) : ℚ) hd0 (by push_cast at hc1 ⊢; linarith)
    rw [hint (k + 1) (by omega) (by omega)] at h2
    exact h2.trans (le_of_eq (by push_cast; ring))

/-- The binary32 value just below `1/2`, `0.49999997f = (2^24 - 1) / 2^25`. -/
theorem roundFloat32_below_half :
    roundFloat32 (16777215 / 33554432) = 16777215 / 33554432 := by
  rw [roundFloat32_of_binade (e := -2) (by norm_num) (by norm_num) (by norm_num)]
  have h : (16777215 / 33554432 : ℚ) / (2 : ℚ) ^ ((-2 : Int) - 23) = ((16777215 : Int) : ℚ) := by
    norm_num
  rw [h, roundHalfEven_intCast]
  norm_num

/-- The binary32 sum `0.49999997f + 127.0f` is `127.5f`: the exact sum is not a binary32
value and the nearest one is `127.5`. -/
theorem roundFloat32_below_half_add :
    roundFloat32 (16777215 / 33554432 + 127) = 255 / 2 := by
  rw [roundFloat32_of_binade (e := 6) (by norm_num) (by norm_num) (by norm_num)]
  rw [roundHalfEven_eq 16711680 (by norm_num) (by norm_num)]
  norm_num

theorem roundHalfEven_tie_odd (n : Int) (hodd : n % 2 = 1) :
    roundHalfEven ((n : ℚ) + 1 / 2) = n + 1 := by
  have hf : ⌊(n : ℚ) + 1 / 2⌋ = n := by
    rw [Int.floor_eq_iff]
    constructor <;> linarith
  unfold roundHalfEven
  rw [hf]
  have e : 2 * ((n : ℚ) + 1 / 2 - (n : ℚ)) = 1 := by ring
  rw [e, if_neg (lt_irrefl _), if_neg (lt_irrefl _), if_neg (by omega)]

/-- With binary32 rounding and no reserved bits, an element just below `absMax` is mapped
to `narrowTypeMax + 1` as well: for `float`, `int8_t` and the vector
`[127.5, 127.5 - 2^-17]` the 32-bit integer of the second element is `128`, because the
sum `v * inverseQStep + 127 = 254.5 - 2^-17` is a tie that rounds to `254.5`. -/
theorem quantizedInt32Rounded_below_absMax :
    roundFloat32 (16711679 / 131072) = 16711679 / 131072 ∧
      Quantize.quantizedInt32Rounded roundFloat32 float32 int8
          (ofBuffer [255 / 2, 16711679 / 131072]) 2 0 ((1 : Nat) : Int) = some 128 := by
  have f1 : roundFloat32 1 = 1 := by
    simpa using roundFloat32_int 1 (by norm_num) (by norm_num)
  have f127 : roundFloat32 127 = 127 := by
    simpa using roundFloat32_int 127 (by norm_num) (by norm_num)
  have f128 : roundFloat32 128 = 128 := by
    simpa using roundFloat32_int 128 (by norm_num) (by norm_num)
  have f256 : roundFloat32 256 = 256 := by
    simpa using roundFloat32_int 256 (by norm_num) (by norm_num)
  have fh : roundFloat32 (255 / 2) = 255 / 2 := by
    have h := roundFloat32_half_int 255 (by norm_num) (by norm_num)
    push_cast at h
    exact h
  have fv : roundFloat32 (16711679 / 131072) = 16711679 / 131072 := by
    rw [roundFloat32_of_binade (e := 6) (by norm_num) (by norm_num) (by norm_num)]
    have h : (16711679 / 131072 : ℚ) / (2 : ℚ) ^ ((6 : Int) - 23) = ((16711679 : Int) : ℚ) := by
      norm_num
    rw [h, roundHalfEven_intCast]
    norm_num
  have fsum : roundFloat32 (16711679 / 131072 + 127) = 509 / 2 := by
    rw [roundFloat32_of_binade (e := 7) (by norm_num) (by norm_num) (by norm_num)]
    have h : (16711679 / 131072 + 127 : ℚ) / (2 : ℚ) ^ ((7 : Int) - 23)
        = ((16678911 : Int) : ℚ) + 1 / 2 := by
      norm_num
    rw [h, roundHalfEven_tie_odd 16678911 (by norm_num)]
    norm_num
  have hmx : max (-(Quantize.minMax float32 (ofBuffer [255 / 2, 16711679 / 131072]) 2).1)
      (Quantize.minMax float32 (ofBuffer [255 / 2, 16711679 / 131072]) 2).2 = 255 / 2 := by
    norm_num [Quantize.minMax, Quantize.minMaxHead, Quantize.minMaxTail, hminimum, hmaximum,
      rdom, ofBuffer, float32, c_VectorizationWidth, List.range_succ]
  have hs : ((shiftLeftOne 0 : Int) : ℚ) = 1 := by
    norm_num [shiftLeftOne, wrapSigned]
  have hA : Quantize.absMaxRounded roundFloat32 float32
      (ofBuffer [255 / 2, 16711679 / 131072]) 2 0 = 255 / 2 := by
    unfold Quantize.absMaxRounded
    rw [hmx, hs, f1, mul_one, fh]
  have hM : ((int8.maxValue : Int) : ℚ) = 127 := by
    norm_num [NarrowType.maxValue, int8]
  have hc : (127 : ℚ) + 1 / 2 = 255 / 2 := by norm_num
  have hinv : Quantize.inverseQStepRounded roundFloat32 float32 int8
      (ofBuffer [255 / 2, 16711679 / 131072]) 2 0 = some 1 := by
    unfold Quantize.inverseQStepRounded
    rw [hA, hM, f127, hc, fh, div_self (by norm_num), f1, if_neg (by norm_num)]
  have hv : ofBuffer [255 / 2, 16711679 / 131072] ((1 : Nat) : Int)
      = 16711679 / 131072 := by
    simp [ofBuffer]
  have hw : ((wrapSigned (max 32 int8.bits) (1 + int8.maxValue) : Int) : ℚ) = 128 := by
    norm_num [wrapSigned, int8, NarrowType.maxValue]
  have h1 : (509 / 2 : ℚ) + 3 / 2 = 256 := by norm_num
  have h2 : (256 : ℚ) - 128 = 128 := by norm_num
  refine ⟨fv, ?_⟩
  unfold Quantize.quantizedInt32Rounded
  rw [hinv, Option.map_some', hv, mul_one, fv, hM, f127, fsum, h1, f256, hw, f128, h2, f128]
  norm_num [castInt32, truncate, wrapSigned]

/-! ## Claims C11 to C20 -/

/-- C11 (counterexample): with 16-bit quantized values all equal to `32767`, `R = 3` and
both steps `1`, the exact sum is `3 * 32767^2 = 3221028867`, which exceeds the 32-bit
range; the 32-bit accumulation gives `-1073938429`. -/
theorem VectorByMatrixTimesQuantized_wraps :
    VectorByMatrixTimesQuantized (fun _ => 32767, 1) (fun _ _ => 32767, 1) 3 1 0
        = -1073938429 ∧
      (((∑ k in Finset.range 3, (fun _ => (32767 : Int)) (k : Int)
          * (fun _ _ => (32767 : Int)) (0 : Int) (k : Int) : Int) : ℚ) * 1 * 1) = 3221028867 ∧
      VectorByMatrixTimesQuantized (fun _ => 32767, 1) (fun _ _ => 32767, 1) 3 1 0
        ≠ (((∑ k in Finset.range 3, (fun _ => (32767 : Int)) (k : Int)
          * (fun _ _ => (32767 : Int)) (0 : Int) (k : Int) : Int) : ℚ) * 1 * 1) := by
  have h1 : VectorByMatrixTimesQuantized (fun _ => 32767, 1) (fun _ _ => 32767, 1) 3 1 0
      = -1073938429 := by
    unfold VectorByMatrixTimesQuantized
    simp only
    rw [quantized_eq_wrapSigned_sum]
    norm_num [VectorByMatrixTimesQuantized.widen, wrapSigned, Finset.sum_range_succ]
  have h2 : (((∑ k in Finset.range 3, (fun _ => (32767 : Int)) (k : Int)
      * (fun _ _ => (32767 : Int)) (0 : Int) (k : Int) : Int) : ℚ) * 1 * 1) = 3221028867 := by
    norm_num [Finset.sum_range_succ]
  refine ⟨h1, h2, ?_⟩
  rw [h1, h2]
  norm_num

/-- C11 (amended): for every `R`, `C`, column `j`, steps `sv`, `sm` and quantized values
`qv`, `qm` such that the values `qv(k)` and the exact sum over `k` in `[0, R)` of
`qv(k) * qm(j, k)` fit in the signed 32-bit range, `VectorByMatrixTimesQuantized` at `j`
equals that sum times `sv * sm`, which is the dot product of the dequantized operands,
the sum over `k` of `(qv(k) * sv) * (qm(j, k) * sm)`. -/
theorem VectorByMatrixTimesQuantized_eq_dequantized_dot (qv : Int → Int) (qm : Int → Int → Int)
    (sv sm : ℚ) (R C : Nat) (j : Int)
    (hvec : ∀ k : Nat, k < R → -(2 ^ 31) ≤ qv k ∧ qv k < 2 ^ 31)
    (hsum : -(2 ^ 31) ≤ ∑ k in Finset.range R, qv (k : Int) * qm j (k : Int) ∧
      ∑ k in Finset.range R, qv (k : Int) * qm j (k : Int) < 2 ^ 31) :
    VectorByMatrixTimesQuantized (qv, sv) (qm, sm) R C j
        = ((∑ k in Finset.range R, qv (k : Int) * qm j (k : Int) : Int) : ℚ) * sv * sm ∧
      VectorByMatrixTimesQuantized (qv, sv) (qm, sm) R C j
        = ∑ k in Finset.range R, ((qv (k : Int) : ℚ) * sv) * ((qm j (k : Int) : ℚ) * sm) := by
  have h1 : VectorByMatrixTimesQuantized (qv, sv) (qm, sm) R C j
      = ((∑ k in Finset.range R, qv (k : Int) * qm j (k : Int) : Int) : ℚ) * sv * sm := by
    unfold VectorByMatrixTimesQuantized
    simp only
    rw [quantized_eq_sum_of_fits qv qm R C j hvec hsum]
  refine ⟨h1, ?_⟩
  rw [h1]
  push_cast
  rw [Finset.sum_mul, Finset.sum_mul]
  refine Finset.sum_congr rfl (fun k _ => ?_)
  ring

/-- Witness of C11 (amended): `qv = [6, 13, 19, 26, 32]` with step `8/51`, a matrix column
of ones with step `8/85`, `R = 5`. -/
theorem VectorByMatrixTimesQuantized_eq_dequantized_dot_witness :
    VectorByMatrixTimesQuantized
        (fun k => ([6, 13, 19, 26, 32] : List Int).getD k.toNat 0, 8 / 51)
        (fun _ _ => 1, 8 / 85) 5 3 0
        = ((∑ k in Finset.range 5,
            (fun k : Int => ([6, 13, 19, 26, 32] : List Int).getD k.toNat 0) (k : Int)
              * (fun _ _ : Int => (1 : Int)) (0 : Int) (k : Int) : Int) : ℚ) * (8 / 51) * (8 / 85) ∧
      VectorByMatrixTimesQuantized
        (fun k => ([6, 13, 19, 26, 32] : List Int).getD k.toNat 0, 8 / 51)
        (fun _ _ => 1, 8 / 85) 5 3 0
        = ∑ k in Finset.range 5,
            (((fun k : Int => ([6, 13, 19, 26, 32] : List Int).getD k.toNat 0) (k : Int) : ℚ)
              * (8 / 51)) * (((fun _ _ : Int => (1 : Int)) (0 : Int) (k : Int) : ℚ) * (8 / 85)) :=
  VectorByMatrixTimesQuantized_eq_dequantized_dot
    (fun k => ([6, 13, 19, 26, 32] : List Int).getD k.toNat 0) (fun _ _ => 1)
    (8 / 51) (8 / 85) 5 3 0
    (by
      intro k hk
      interval_cases k <;> simp)
    (by simp [Finset.sum_range_succ])

/-- C13: for every `from < to` and every output index `i ≥ 0`, `Slice(x, from, to)` at `i`
reads `x` at `min(from + i, to - 1)`: it is `x[from + i]` when `i < to - from` and
`x[to - 1]` when `i ≥ to - from`, and the index read lies in `[from, to - 1]`. -/
theorem Slice_reads_clamped_index {α : Type} (x : Int → α) (from_ to_ i : Int)
    (hft : from_ < to_) (hi : 0 ≤ i) :
    Slice x from_ to_ i = x (min (from_ + i) (to_ - 1)) ∧
      (i < to_ - from_ → Slice x from_ to_ i = x (from_ + i)) ∧
      (to_ - from_ ≤ i → Slice x from_ to_ i = x (to_ - 1)) ∧
      from_ ≤ Slice.readIndex from_ to_ i ∧ Slice.readIndex from_ to_ i ≤ to_ - 1 := by
  refine ⟨rfl, ?_, ?_, ?_, ?_⟩
  · intro h
    unfold Slice Slice.readIndex
    rw [min_eq_left (by omega)]
  · intro h
    unfold Slice Slice.readIndex
    rw [min_eq_right (by omega)]
  · unfold Slice.readIndex
    exact le_min (by omega) (by omega)
  · exact min_le_right _ _

/-- Witness of C13: `x = [0, 1, 2, 3, 4, 5, 6]`, `from = 2`, `to = 5`: the outputs at
`i = 0, 1, 2, 3, 4` are `2, 3, 4, 4, 4`, and the theorem applied at `i = 3`. -/
theorem Slice_reads_clamped_index_witness :
    (List.range 5).map
        (fun (i : Nat) =>
          Slice (fun k : Int => ([0, 1, 2, 3, 4, 5, 6] : List Int).getD k.toNat 0) 2 5 (i : Int))
        = [2, 3, 4, 4, 4] ∧
      (Slice (fun k : Int => ([0, 1, 2, 3, 4, 5, 6] : List Int).getD k.toNat 0) 2 5 3
          = (fun k : Int => ([0, 1, 2, 3, 4, 5, 6] : List Int).getD k.toNat 0)
              (min (2 + 3) (5 - 1)) ∧
        ((3 : Int) < 5 - 2 →
          Slice (fun k : Int => ([0, 1, 2, 3, 4, 5, 6] : List Int).getD k.toNat 0) 2 5 3
            = (fun k : Int => ([0, 1, 2, 3, 4, 5, 6] : List Int).getD k.toNat 0) (2 + 3)) ∧
        ((5 : Int) - 2 ≤ 3 →
          Slice (fun k : Int => ([0, 1, 2, 3, 4, 5, 6] : List Int).getD k.toNat 0) 2 5 3
            = (fun k : Int => ([0, 1, 2, 3, 4, 5, 6] : List Int).getD k.toNat 0) (5 - 1)) ∧
        (2 : Int) ≤ Slice.readIndex 2 5 3 ∧ Slice.readIndex 2 5 3 ≤ 5 - 1) :=
  ⟨by decide,
    Slice_reads_clamped_index
      (fun k : Int => ([0, 1, 2, 3, 4, 5, 6] : List Int).getD k.toNat 0) 2 5 3
      (by decide) (by decide)⟩

/-- C14: for every `rows ≥ 1`, every column `x` and every row `y` in `[0, rows)`,
`(x * rows + y) / rows = x` and `(x * rows + y) % rows = y`, the flattened view at
`x * rows + y` is `matrix(x, y)`, and `quantizedMatrix(x, y)` is the 1-D pipeline's
quantized value computed from the entry `matrix(x, y)` with the shared inverse step. -/
theorem quantizedMatrix_unflatten (T : WideType) (Q : NarrowType) (matrix : Int → Int → ℚ)
    (rows columns B : Nat) (x y : Int) (hrows : 1 ≤ rows) (hy0 : 0 ≤ y) (hy : y < rows) :
    (x * (rows : Int) + y) / (rows : Int) = x ∧
      (x * (rows : Int) + y) % (rows : Int) = y ∧
      QuantizeMatrix.asVector matrix rows (x * (rows : Int) + y) = matrix x y ∧
      (QuantizeMatrix T Q matrix rows columns B).1 x y
        = (Quantize.inverseQStep T Q (QuantizeMatrix.asVector matrix rows) (rows * columns) B).map
            (fun inverseQStep =>
              wrapSigned Q.bits
                (castInt32 ((matrix x y * inverseQStep + (Q.maxValue : ℚ) + 3 / 2)
                  - ((wrapSigned (max 32 Q.bits) (1 + Q.maxValue) : Int) : ℚ)))) := by
  have hr : (0 : Int) < (rows : Int) := by exact_mod_cast hrows
  have hdiv : (x * (rows : Int) + y) / (rows : Int) = x := by
    rw [add_comm, Int.add_mul_ediv_right _ _ hr.ne', Int.ediv_eq_zero_of_lt hy0 hy, zero_add]
  have hmod : (x * (rows : Int) + y) % (rows : Int) = y := by
    rw [add_comm, Int.add_mul_emod_self, Int.emod_eq_of_lt hy0 hy]
  have hflat : QuantizeMatrix.asVector matrix rows (x * (rows : Int) + y) = matrix x y := by
    unfold QuantizeMatrix.asVector
    rw [hdiv, hmod]
  refine ⟨hdiv, hmod, hflat, ?_⟩
  show Quantize.quantized T Q (QuantizeMatrix.asVector matrix rows) (rows * columns) B
      (x * (rows : Int) + y) = _
  unfold Quantize.quantized Quantize.quantizedInt32
  rw [Option.map_map, hflat]
  rfl

/-- Witness of C14: a 3-column, 5-row matrix, entry `(x, y) = (2, 3)`. -/
theorem quantizedMatrix_unflatten_witness :
    ((2 : Int) * ((5 : Nat) : Int) + 3) / ((5 : Nat) : Int) = 2 ∧
      ((2 : Int) * ((5 : Nat) : Int) + 3) % ((5 : Nat) : Int) = 3 ∧
      QuantizeMatrix.asVector (fun x y : Int => (x : ℚ) + 10 * y) 5
        ((2 : Int) * ((5 : Nat) : Int) + 3) = (fun x y : Int => (x : ℚ) + 10 * y) 2 3 ∧
      (QuantizeMatrix float32 int8 (fun x y : Int => (x : ℚ) + 10 * y) 5 3 2).1 2 3
        = (Quantize.inverseQStep float32 int8
              (QuantizeMatrix.asVector (fun x y : Int => (x : ℚ) + 10 * y) 5) (5 * 3) 2).map
            (fun inverseQStep =>
              wrapSigned int8.bits
                (castInt32 (((fun x y : Int => (x : ℚ) + 10 * y) 2 3 * inverseQStep
                    + (int8.maxValue : ℚ) + 3 / 2)
                  - ((wrapSigned (max 32 int8.bits) (1 + int8.maxValue) : Int) : ℚ)))) :=
  quantizedMatrix_unflatten float32 int8 (fun x y : Int => (x : ℚ) + 10 * y) 5 3 2 2 3
    (by decide) (by decide) (by decide)

/-- C16 (the code at the failing input): for `R = 3 < 4` and `C = 5` the small-size path
returns its output without any call to `bound`, so the output index is not explicitly
bounded to `[0, 5)`; the blocked path, taken for `R = 4`, sets that bound. -/
theorem VectorByMatrixTimes_small_path_unbounded :
    VectorByMatrixTimes.outputBound 3 5 = none ∧
      VectorByMatrixTimes.outputBound 3 5 ≠ some (0, 5) ∧
      VectorByMatrixTimes.outputBound 4 5 = some (0, 5) := by
  refine ⟨?_, ?_, ?_⟩ <;> decide

/-- The expression returned by `VectorByMatrixTimes` has its output index explicitly
bounded to exactly `[0, C)` if and only if `R ≥ 4`, that is on the blocked path; for
`R < 4` the small-size path sets no bound. -/
theorem outputBound_eq_some_iff (R C : Nat) :
    (VectorByMatrixTimes.outputBound R C = some (0, C) ↔ c_VectorizationWidth ≤ R) ∧
      (VectorByMatrixTimes.outputBound R C = none ↔ R < c_VectorizationWidth) := by
  unfold VectorByMatrixTimes.outputBound
  by_cases h : R < c_VectorizationWidth
  · simp [h]
  · simp [h, not_lt.1 h]

/-- C17: for every input array `value` and every reserved-bit count, the host-side
`Quantize(value, numReservedBits)` returns `(result, step)` where `result` has exactly
`value.size()` elements, `result[i]` is the pipeline's quantized value at index `i` for
every `i` in `[0, value.size())`, the pipeline reading `value[i]` at index `i`, and `step`
is the pipeline's `qStep` over the whole array. -/
theorem QuantizeOffline_result (T : WideType) (Q : NarrowType) (value : List ℚ) (B : Nat) :
    (QuantizeOffline T Q value B).1.length = value.length ∧
      (∀ i : Nat, i < value.length →
        (QuantizeOffline T Q value B).1[i]?
            = some (Quantize.quantized T Q (ofBuffer value) value.length B (i : Int)) ∧
          value[i]? = some (ofBuffer value (i : Int))) ∧
      (QuantizeOffline T Q value B).2 = Quantize.qStep T Q (ofBuffer value) value.length B := by
  refine ⟨by simp [QuantizeOffline], ?_, rfl⟩
  intro i hi
  constructor
  · simp [QuantizeOffline, Quantize, hi]
  · simp [ofBuffer, List.getD_eq_getElem?_getD, hi]

/-- C18: for a narrow type of `K ≤ 31` bits (`narrowTypeMax = 2^(K-1) - 1`), every
vector that is not all zero, every reserved-bit count `0 ≤ B ≤ K - 1` and every element, the
integer `q` that `Quantize` produces before narrowing is defined and `|q| ≤ 2^(K-1-B)`. -/
theorem quantizedInt32_abs_le_pow (T : WideType) (Q : NarrowType) (v : Int → ℚ) (N B i : Nat)
    (hb2 : Q.bits ≤ 31) (hB : B + 1 ≤ Q.bits)
    (hnz : ∃ k : Nat, k < N ∧ v k ≠ 0) (hi : i < N) :
    Q.maxValue = 2 ^ (Q.bits - 1) - 1 ∧
      ∃ q : Int, Quantize.quantizedInt32 T Q v N B i = some q ∧
        |q| ≤ 2 ^ (Q.bits - 1 - B) := by
  refine ⟨rfl, ?_⟩
  have hb1 : 1 ≤ Q.bits := by omega
  have hB30 : B ≤ 30 := by omega
  have hpos := absMax_pos T v N hB30 hnz
  have habs := abs_scaled_le_pow T Q v N hb1 hb2 hB hnz hi
  rw [abs_le] at habs
  have hP30 : (2 : Int) ^ (Q.bits - 1 - B) ≤ 2 ^ 30 :=
    pow_le_pow_right₀ (by norm_num) (by omega)
  have hP0 : (0 : Int) < 2 ^ (Q.bits - 1 - B) := by positivity
  have hlo : -(2 ^ (Q.bits - 1 - B) : Int) ≤ truncate
      (v i * (((Q.maxValue : ℚ) + 1 / 2) / Quantize.absMax T v N B) + 1 / 2) :=
    le_truncate (by omega) (by push_cast; linarith [habs.1])
  have hhi : truncate
      (v i * (((Q.maxValue : ℚ) + 1 / 2) / Quantize.absMax T v N B) + 1 / 2)
      ≤ (2 ^ (Q.bits - 1 - B) : Int) :=
    truncate_le hP0.le (by push_cast; linarith [habs.2])
  refine ⟨_, quantizedInt32_eq T Q v N B hb2 hpos.ne' i, ?_⟩
  unfold castInt32
  rw [wrapSigned_eq_self (by norm_num) (by norm_num; omega) (by norm_num; omega)]
  exact abs_le.2 ⟨hlo, hhi⟩

/-- Witness of C18: `float`, `int8_t` (`K = 8`), two reserved bits, the vector
`[1, 2, 3, 4, 5]`, its largest element: `|q| ≤ 2^5`. -/
theorem quantizedInt32_abs_le_pow_witness :
    int8.maxValue = 2 ^ (int8.bits - 1) - 1 ∧
      ∃ q : Int,
        Quantize.quantizedInt32 float32 int8 (ofBuffer [1, 2, 3, 4, 5]) 5 2 ((4 : Nat) : Int)
          = some q ∧
        |q| ≤ 2 ^ (int8.bits - 1 - 2) :=
  quantizedInt32_abs_le_pow float32 int8 (ofBuffer [1, 2, 3, 4, 5]) 5 2 4
    (by decide) (by decide) ⟨0, by decide, by norm_num [ofBuffer]⟩ (by decide)

/-- C20 (counterexample): with `Type = float`, `QuantizedType = int8_t`, no reserved bits
and the vector `[127.5, 0.49999997f]` (both binary32 values), every operation rounded to
binary32, `inverseQStep` is `1` and the integer produced for the second element is `1`,
while `floor(v * inverseQStep + 1/2) = floor(0.99999997) = 0`: the sum
`v * inverseQStep + 127` rounds up to `127.5`. -/
theorem quantizedInt32Rounded_ne_floor :
    roundFloat32 (255 / 2) = 255 / 2 ∧
      roundFloat32 (16777215 / 33554432) = 16777215 / 33554432 ∧
      Quantize.inverseQStepRounded roundFloat32 float32 int8
          (ofBuffer [255 / 2, 16777215 / 33554432]) 2 0 = some 1 ∧
      Quantize.quantizedInt32Rounded roundFloat32 float32 int8
          (ofBuffer [255 / 2, 16777215 / 33554432]) 2 0 ((1 : Nat) : Int) = some 1 ∧
      ⌊ofBuffer [255 / 2, 16777215 / 33554432] ((1 : Nat) : Int) * 1 + 1 / 2⌋ = (0 : Int) := by
  have f1 : roundFloat32 1 = 1 := by
    simpa using roundFloat32_int 1 (by norm_num) (by norm_num)
  have f127 : roundFloat32 127 = 127 := by
    simpa using roundFloat32_int 127 (by norm_num) (by norm_num)
  have f128 : roundFloat32 128 = 128 := by
    simpa using roundFloat32_int 128 (by norm_num) (by norm_num)
  have f129 : roundFloat32 129 = 129 := by
    simpa using roundFloat32_int 129 (by norm_num) (by norm_num)
  have fh : roundFloat32 (255 / 2) = 255 / 2 := by
    have h := roundFloat32_half_int 255 (by norm_num) (by norm_num)
    push_cast at h
    exact h
  have hmx : max (-(Quantize.minMax float32 (ofBuffer [255 / 2, 16777215 / 33554432]) 2).1)
      (Quantize.minMax float32 (ofBuffer [255 / 2, 16777215 / 33554432]) 2).2 = 255 / 2 := by
    norm_num [Quantize.minMax, Quantize.minMaxHead, Quantize.minMaxTail, hminimum, hmaximum,
      rdom, ofBuffer, float32, c_VectorizationWidth, List.range_succ]
  have hs : ((shiftLeftOne 0 : Int) : ℚ) = 1 := by
    norm_num [shiftLeftOne, wrapSigned]
  have hA : Quantize.absMaxRounded roundFloat32 float32
      (ofBuffer [255 / 2, 16777215 / 33554432]) 2 0 = 255 / 2 := by
    unfold Quantize.absMaxRounded
    rw [hmx, hs, f1, mul_one, fh]
  have hM : ((int8.maxValue : Int) : ℚ) = 127 := by
    norm_num [NarrowType.maxValue, int8]
  have hc : (127 : ℚ) + 1 / 2 = 255 / 2 := by norm_num
  have hinv : Quantize.inverseQStepRounded roundFloat32 float32 int8
      (ofBuffer [255 / 2, 16777215 / 33554432]) 2 0 = some 1 := by
    unfold Quantize.inverseQStepRounded
    rw [hA, hM, f127, hc, fh, div_self (by norm_num), f1, if_neg (by norm_num)]
  have hv : ofBuffer [255 / 2, 16777215 / 33554432] ((1 : Nat) : Int)
      = 16777215 / 33554432 := by
    simp [ofBuffer]
  have hw : ((wrapSigned (max 32 int8.bits) (1 + int8.maxValue) : Int) : ℚ) = 128 := by
    norm_num [wrapSigned, int8, NarrowType.maxValue]
  have h1 : (255 / 2 : ℚ) + 3 / 2 = 129 := by norm_num
  have h2 : (129 : ℚ) - 128 = 1 := by norm_num
  refine ⟨fh, roundFloat32_below_half, hinv, ?_, ?_⟩
  · unfold Quantize.quantizedInt32Rounded
    rw [hinv, Option.map_some', hv, mul_one, roundFloat32_below_half, hM, f127,
      roundFloat32_below_half_add, h1, f129, hw, f128, h2, f1]
    norm_num [castInt32, truncate, wrapSigned]
  · rw [hv, Int.floor_eq_iff]
    norm_num

/-- C20 (amended): let `fl` be the rounding applied to every operation of the wide type,
monotone on the non-negative values, at most doubling a non-negative value, and leaving
the multiples of `1/2` up to `3 * narrowTypeMax + 3` and the magnitudes of the vector's
elements unchanged (binary32 with `int8_t` or `int16_t`, or exact arithmetic). For a
vector that is not all zero, a reserved-bit count `B ≤ 30`, a narrow type of at most 30
bits and an element `v ≥ 0`, `inverseQStep` is defined and the integer `Quantize` produces
before narrowing is `floor(v * inverseQStep + 1/2)` or that integer plus one; with exact
arithmetic it is `floor(v * inverseQStep + 1/2)`. -/
theorem quantizedInt32Rounded_nonneg (fl : ℚ → ℚ) (T : WideType) (Q : NarrowType)
    (v : Int → ℚ) (N B i : Nat)
    (hmono : ∀ x y : ℚ, 0 ≤ x → x ≤ y → fl x ≤ fl y)
    (hfix : ∀ z : Int, 0 ≤ z → z ≤ 6 * Q.maxValue + 6 → fl ((z : ℚ) / 2) = (z : ℚ) / 2)
    (hdouble : ∀ x : ℚ, 0 ≤ x → fl x ≤ 2 * x)
    (hval : ∀ k : Nat, k < N → fl |v k| = |v k|)
    (hB : B ≤ 30) (hb : Q.bits ≤ 30) (hnz : ∃ k : Nat, k < N ∧ v k ≠ 0)
    (hi : i < N) (hv : 0 ≤ v i) :
    ∃ inverseQStep : ℚ, ∃ q : Int,
      Quantize.inverseQStepRounded fl T Q v N B = some inverseQStep ∧
      Quantize.quantizedInt32Rounded fl T Q v N B i = some q ∧
      (q = ⌊v i * inverseQStep + 1 / 2⌋ ∨ q = ⌊v i * inverseQStep + 1 / 2⌋ + 1) ∧
      ((∀ x : ℚ, fl x = x) → q = ⌊v i * inverseQStep + 1 / 2⌋) := by
  have hM := maxValue_nonneg Q
  have hMlt : Q.maxValue < 2 ^ 29 := by
    unfold NarrowType.maxValue
    have : (2 : Int) ^ (Q.bits - 1) ≤ 2 ^ 29 := pow_le_pow_right₀ (by norm_num) (by omega)
    omega
  have hMq : (0 : ℚ) ≤ (Q.maxValue : ℚ) := by exact_mod_cast hM
  have hfl0 : fl 0 = 0 := by simpa using hfix 0 le_rfl (by omega)
  have hfl1 : fl 1 = 1 := by
    have h := hfix 2 (by norm_num) (by omega)
    norm_num at h
    exact h
  have hflM : fl (Q.maxValue : ℚ) = (Q.maxValue : ℚ) := by
    have h := hfix (2 * Q.maxValue) (by omega) (by omega)
    push_cast at h
    rwa [mul_div_cancel_left₀ _ (by norm_num : (2 : ℚ) ≠ 0)] at h
  have hflc : fl ((Q.maxValue : ℚ) + 1 / 2) = (Q.maxValue : ℚ) + 1 / 2 := by
    have h := hfix (2 * Q.maxValue + 1) (by omega) (by omega)
    push_cast at h
    have e : (2 * (Q.maxValue : ℚ) + 1) / 2 = (Q.maxValue : ℚ) + 1 / 2 := by ring
    rwa [e] at h
  -- the rounded factor `1 << B` is at least one
  have hs : (1 : ℚ) ≤ fl ((shiftLeftOne B : Int) : ℚ) := by
    rw [shiftLeftOne_eq hB]
    have h1 : (1 : ℚ) ≤ (((2 : Int) ^ B : Int) : ℚ) := by
      push_cast
      exact one_le_pow₀ (by norm_num)
    have h := hmono 1 _ (by norm_num) h1
    rwa [hfl1] at h
  -- the rounded `absMax` bounds every element
  have hmx0 : 0 < max (-(Quantize.minMax T v N).1) (Quantize.minMax T v N).2 :=
    max_neg_minMax_pos T v N hnz
  have hA : ∀ k : Nat, k < N → |v k| ≤ Quantize.absMaxRounded fl T v N B := by
    intro k hk
    have h1 := abs_le_max_neg_minMax T v N hk
    have h2 : |v k| ≤ max (-(Quantize.minMax T v N).1) (Quantize.minMax T v N).2
        * fl ((shiftLeftOne B : Int) : ℚ) := by nlinarith
    have h := hmono _ _ (abs_nonneg (v k)) h2
    rwa [hval k hk] at h
  have hApos : 0 < Quantize.absMaxRounded fl T v N B := by
    obtain ⟨k, hk, hvk⟩ := hnz
    exact (abs_pos.2 hvk).trans_le (hA k hk)
  have hvA : v i ≤ Quantize.absMaxRounded fl T v N B := (le_abs_self _).trans (hA i hi)
  -- the rounded `inverseQStep`
  have hinv : Quantize.inverseQStepRounded fl T Q v N B
      = some (fl (((Q.maxValue : ℚ) + 1 / 2) / Quantize.absMaxRounded fl T v N B)) := by
    unfold Quantize.inverseQStepRounded
    rw [if_neg hApos.ne', hflM, hflc]
  have hq0 : 0 ≤ ((Q.maxValue : ℚ) + 1 / 2) / Quantize.absMaxRounded fl T v N B :=
    div_nonneg (by linarith) hApos.le
  have hinv0 : 0 ≤ fl (((Q.maxValue : ℚ) + 1 / 2) / Quantize.absMaxRounded fl T v N B) := by
    have h := hmono 0 _ le_rfl hq0
    rwa [hfl0] at h
  have hinv1 := hdouble _ hq0
  have hy0 : 0 ≤ v i * fl (((Q.maxValue : ℚ) + 1 / 2) / Quantize.absMaxRounded fl T v N B) :=
    mul_nonneg hv hinv0
  have hy1 : v i * fl (((Q.maxValue : ℚ) + 1 / 2) / Quantize.absMaxRounded fl T v N B)
      ≤ 2 * (Q.maxValue : ℚ) + 1 := by
    calc v i * fl (((Q.maxValue : ℚ) + 1 / 2) / Quantize.absMaxRounded fl T v N B)
        ≤ v i * (2 * (((Q.maxValue : ℚ) + 1 / 2) / Quantize.absMaxRounded fl T v N B)) :=
          mul_le_mul_of_nonneg_left hinv1 hv
      _ ≤ Quantize.absMaxRounded fl T v N B
            * (2 * (((Q.maxValue : ℚ) + 1 / 2) / Quantize.absMaxRounded fl T v N B)) :=
          mul_le_mul_of_nonneg_right hvA (by linarith)
      _ = 2 * (Q.maxValue : ℚ) + 1 := by
          field_simp
          ring
  obtain ⟨hlo, hhi⟩ := rounded_cast_argument fl Q.maxValue hM hmono hfix hy0 hy1
  obtain ⟨k, hk⟩ : ∃ k : Int,
      k = ⌊v i * fl (((Q.maxValue : ℚ) + 1 / 2) / Quantize.absMaxRounded fl T v N B)
        + 1 / 2⌋ := ⟨_, rfl⟩
  rw [← hk] at hlo hhi
  have hk0 : 0 ≤ k := by rw [hk]; exact Int.floor_nonneg.2 (by linarith)
  have hk1 : k ≤ 2 * Q.maxValue + 1 := by
    have h1 : (k : ℚ) ≤ v i * fl (((Q.maxValue : ℚ) + 1 / 2)
        / Quantize.absMaxRounded fl T v N B) + 1 / 2 := by rw [hk]; exact Int.floor_le _
    have h : (k : ℚ) < ((2 * Q.maxValue + 2 : Int) : ℚ) := by push_cast; linarith
    have h2 : k < 2 * Q.maxValue + 2 := by exact_mod_cast h
    omega
  have hkq : (0 : ℚ) ≤ (k : ℚ) := by exact_mod_cast hk0
  obtain ⟨d, hd⟩ : ∃ d : ℚ, d = fl (fl (fl (fl (v i * fl (((Q.maxValue : ℚ) + 1 / 2)
      / Quantize.absMaxRounded fl T v N B)) + fl (Q.maxValue : ℚ)) + 3 / 2)
      - fl ((1 + Q.maxValue : Int) : ℚ)) := ⟨_, rfl⟩
  rw [← hd] at hlo hhi
  have hd0 : 0 ≤ d := hkq.trans hlo
  have hfl_lo : k ≤ ⌊d⌋ := Int.le_floor.2 hlo
  have hfl_hi : ⌊d⌋ ≤ k + 1 := by
    have h : ((⌊d⌋ : Int) : ℚ) ≤ ((k + 1 : Int) : ℚ) := by
      push_cast
      exact (Int.floor_le d).trans hhi
    exact_mod_cast h
  have hq : Quantize.quantizedInt32Rounded fl T Q v N B i = some ⌊d⌋ := by
    unfold Quantize.quantizedInt32Rounded
    rw [hinv, Option.map_some', promoted_one_add_maxValue Q (by omega), ← hd]
    unfold castInt32
    rw [truncate_of_nonneg hd0,
      wrapSigned_eq_self (by norm_num) (by norm_num; omega) (by norm_num; omega)]
  refine ⟨_, ⌊d⌋, hinv, hq, ?_, ?_⟩
  · rw [← hk]
    omega
  · intro hid
    rw [← hk]
    have hdy : d = v i * fl (((Q.maxValue : ℚ) + 1 / 2)
        / Quantize.absMaxRounded fl T v N B) + 1 / 2 := by
      rw [hd, hid (_ - _), hid (_ + 3 / 2), hid (_ + fl _), hid (v i * _),
        hid ((Q.maxValue : ℚ)), hid (((1 + Q.maxValue : Int)) : ℚ)]
      push_cast
      ring
    rw [hk, hdy]

/-- Witness of C20 (amended): binary32 rounding, `float`, `int8_t`, no reserved bits, the
vector `[127.5, 0.49999997f]`, its second element. -/
theorem quantizedInt32Rounded_nonneg_witness :
    ∃ inverseQStep : ℚ, ∃ q : Int,
      Quantize.inverseQStepRounded roundFloat32 float32 int8
          (ofBuffer [255 / 2, 16777215 / 33554432]) 2 0 = some inverseQStep ∧
      Quantize.quantizedInt32Rounded roundFloat32 float32 int8
          (ofBuffer [255 / 2, 16777215 / 33554432]) 2 0 ((1 : Nat) : Int) = some q ∧
      (q = ⌊ofBuffer [255 / 2, 16777215 / 33554432] ((1 : Nat) : Int) * inverseQStep
            + 1 / 2⌋ ∨
        q = ⌊ofBuffer [255 / 2, 16777215 / 33554432] ((1 : Nat) : Int) * inverseQStep
            + 1 / 2⌋ + 1) ∧
      ((∀ x : ℚ, roundFloat32 x = x) →
        q = ⌊ofBuffer [255 / 2, 16777215 / 33554432] ((1 : Nat) : Int) * inverseQStep
            + 1 / 2⌋) :=
  quantizedInt32Rounded_nonneg roundFloat32 float32 int8
    (ofBuffer [255 / 2, 16777215 / 33554432]) 2 0 1
    (fun _ _ hx hxy => roundFloat32_mono hx hxy)
    (fun z h0 h1 => roundFloat32_half_int z h0
      (lt_of_le_of_lt h1 (by norm_num [NarrowType.maxValue, int8])))
    (fun _ hx => roundFloat32_le_two_mul hx)
    (by
      intro k hk
      have hcases : k = 0 ∨ k = 1 := by omega
      rcases hcases with h | h
      · subst h
        have hv0 : ofBuffer [255 / 2, 16777215 / 33554432] ((0 : Nat) : Int) = 255 / 2 := by
          simp [ofBuffer]
        have h := roundFloat32_half_int 255 (by norm_num) (by norm_num)
        push_cast at h
        rw [hv0, abs_of_pos (by norm_num)]
        exact h
      · subst h
        have hv1 : ofBuffer [255 / 2, 16777215 / 33554432] ((1 : Nat) : Int)
            = 16777215 / 33554432 := by
          simp [ofBuffer]
        rw [hv1, abs_of_pos (by norm_num)]
        exact roundFloat32_below_half)
    (by decide) (by decide) ⟨0, by decide, by norm_num [ofBuffer]⟩ (by decide)
    (by simp [ofBuffer]; norm_num)

/-- C19: in `VectorByMatrixTimesQuantized` with 8-bit values (`qv(k)` and `qm(j, k)` in
`[-128, 127]` for `k` in `[0, R)`) and `R < 2^17`, every accumulation of at most `R` of the
widened products over indices in `[0, R)` lies in the signed 32-bit range; in particular
every head lane, the head, the tail and the total do, and the result accumulated modulo
`2^32` equals the exact integer computation and the exact sum. -/
theorem accumulation_fits_int32 (qv : Int → Int) (qm : Int → Int → Int) (R C : Nat) (j : Int)
    (hR : R < 2 ^ 17)
    (hv : ∀ k : Nat, k < R → -128 ≤ qv k ∧ qv k ≤ 127)
    (hm : ∀ k : Nat, k < R → -128 ≤ qm j k ∧ qm j k ≤ 127) :
    (∀ dom : List Int, (∀ k ∈ dom, 0 ≤ k ∧ k < (R : Int)) → dom.length ≤ R →
        -(2 ^ 31) ≤ hsum dom (fun k => VectorByMatrixTimesQuantized.widen qv k * qm j k) ∧
          hsum dom (fun k => VectorByMatrixTimesQuantized.widen qv k * qm j k) < 2 ^ 31) ∧
      (∀ lane : Int, 0 ≤ lane → lane < 4 →
        -(2 ^ 31) ≤ VectorByMatrixTimes.partialSum
            (VectorByMatrixTimesQuantized.widen qv) qm R lane j ∧
          VectorByMatrixTimes.partialSum
            (VectorByMatrixTimesQuantized.widen qv) qm R lane j < 2 ^ 31) ∧
      (-(2 ^ 31) ≤ VectorByMatrixTimes.head (VectorByMatrixTimesQuantized.widen qv) qm R j ∧
        VectorByMatrixTimes.head (VectorByMatrixTimesQuantized.widen qv) qm R j < 2 ^ 31) ∧
      (-(2 ^ 31) ≤ VectorByMatrixTimes.tail (VectorByMatrixTimesQuantized.widen qv) qm R j ∧
        VectorByMatrixTimes.tail (VectorByMatrixTimesQuantized.widen qv) qm R j < 2 ^ 31) ∧
      (-(2 ^ 31) ≤ VectorByMatrixTimes (VectorByMatrixTimesQuantized.widen qv) qm R C j ∧
        VectorByMatrixTimes (VectorByMatrixTimesQuantized.widen qv) qm R C j < 2 ^ 31) ∧
      VectorByMatrixTimesQuantized.quantized qv qm R C j
        = VectorByMatrixTimes (VectorByMatrixTimesQuantized.widen qv) qm R C j ∧
      VectorByMatrixTimesQuantized.quantized qv qm R C j
        = ∑ k in Finset.range R, qv (k : Int) * qm j (k : Int) := by
  have hgen := hsum_products_fit qv qm R j hR hv hm
  have hblk : ∀ k ∈ blockedIndices c_VectorizationWidth R, 0 ≤ k ∧ k < (R : Int) := by
    intro k hk
    obtain ⟨i, hi, rfl⟩ := (mem_blockedIndices_iff _ _ _).1 hk
    omega
  have hlenb := length_blockedIndices c_VectorizationWidth R
  have hlane : ∀ lane : Int, 0 ≤ lane → lane < 4 →
      -(2 ^ 31) ≤ VectorByMatrixTimes.partialSum
          (VectorByMatrixTimesQuantized.widen qv) qm R lane j ∧
        VectorByMatrixTimes.partialSum
          (VectorByMatrixTimesQuantized.widen qv) qm R lane j < 2 ^ 31 := by
    intro lane h0 h4
    have hrw : VectorByMatrixTimes.partialSum (VectorByMatrixTimesQuantized.widen qv) qm R lane j
        = hsum ((rdom 0 (R / c_VectorizationWidth)).map
            (fun k1 => lane + k1 * (c_VectorizationWidth : Int)))
          (fun k => VectorByMatrixTimesQuantized.widen qv k * qm j k) := by
      rw [hsum_map]
      rfl
    rw [hrw]
    refine hgen _ ?_ ?_
    · intro k hk
      obtain ⟨k1, hk1, rfl⟩ := List.mem_map.1 hk
      have := mem_rdom.1 hk1
      simp only [c_VectorizationWidth] at this ⊢
      omega
    · simp only [List.length_map, rdom, List.length_range, c_VectorizationWidth]
      omega
  have hhead : -(2 ^ 31) ≤ VectorByMatrixTimes.head (VectorByMatrixTimesQuantized.widen qv) qm R j ∧
      VectorByMatrixTimes.head (VectorByMatrixTimesQuantized.widen qv) qm R j < 2 ^ 31 := by
    rw [head_eq_hsum_headIndices]
    refine hgen _ (fun k hk => hblk k ?_) ?_
    · unfold blockedIndices
      exact List.mem_append_left _ hk
    · have : (headIndices c_VectorizationWidth R).length
          ≤ (blockedIndices c_VectorizationWidth R).length := by
        unfold blockedIndices
        simp
      omega
  have htail : -(2 ^ 31) ≤ VectorByMatrixTimes.tail (VectorByMatrixTimesQuantized.widen qv) qm R j ∧
      VectorByMatrixTimes.tail (VectorByMatrixTimesQuantized.widen qv) qm R j < 2 ^ 31 := by
    have hrw : VectorByMatrixTimes.tail (VectorByMatrixTimesQuantized.widen qv) qm R j
        = hsum (tailIndices c_VectorizationWidth R)
          (fun k => VectorByMatrixTimesQuantized.widen qv k * qm j k) := rfl
    rw [hrw]
    refine hgen _ (fun k hk => hblk k ?_) ?_
    · unfold blockedIndices
      exact List.mem_append_right _ hk
    · have : (tailIndices c_VectorizationWidth R).length
          ≤ (blockedIndices c_VectorizationWidth R).length := by
        unfold blockedIndices
        simp
      omega
  have hsumeq : VectorByMatrixTimes (VectorByMatrixTimesQuantized.widen qv) qm R C j
      = hsum (rdom 0 R) (fun k => VectorByMatrixTimesQuantized.widen qv k * qm j k) := by
    rw [VectorByMatrixTimes_eq_sum, hsum_rdom_zero]
  have htotal : -(2 ^ 31) ≤ VectorByMatrixTimes (VectorByMatrixTimesQuantized.widen qv) qm R C j ∧
      VectorByMatrixTimes (VectorByMatrixTimesQuantized.widen qv) qm R C j < 2 ^ 31 := by
    rw [hsumeq]
    refine hgen _ ?_ ?_
    · intro k hk
      have := mem_rdom.1 hk
      omega
    · simp [rdom]
  have hq : VectorByMatrixTimesQuantized.quantized qv qm R C j
      = VectorByMatrixTimes (VectorByMatrixTimesQuantized.widen qv) qm R C j := by
    rw [quantized_eq_wrapSigned_sum, VectorByMatrixTimes_eq_sum]
    rw [VectorByMatrixTimes_eq_sum] at htotal
    exact wrapSigned_eq_self (by norm_num) (by norm_num; omega) (by norm_num; omega)
  refine ⟨hgen, hlane, hhead, htail, htotal, hq, ?_⟩
  rw [hq, VectorByMatrixTimes_eq_sum]
  refine Finset.sum_congr rfl (fun k hk => ?_)
  have hk' := hv k (Finset.mem_range.1 hk)
  unfold VectorByMatrixTimesQuantized.widen
  rw [wrapSigned_eq_self (by norm_num) (by norm_num; omega) (by norm_num; omega)]

/-- Witness of C19: `qv = [6, 13, 19, 26, 32]`, a matrix of ones, `R = 5`. -/
theorem accumulation_fits_int32_witness :
    5 < 2 ^ 17 ∧
      VectorByMatrixTimesQuantized.quantized
          (fun k => ([6, 13, 19, 26, 32] : List Int).getD k.toNat 0) (fun _ _ => 1) 5 3 0
        = ∑ k in Finset.range 5,
            (fun k : Int => ([6, 13, 19, 26, 32] : List Int).getD k.toNat 0) (k : Int)
              * (fun _ _ : Int => (1 : Int)) (0 : Int) (k : Int) :=
  ⟨by norm_num,
    (accumulation_fits_int32
      (fun k => ([6, 13, 19, 26, 32] : List Int).getD k.toNat 0) (fun _ _ => 1) 5 3 0
      (by norm_num)
      (by
        intro k hk
        interval_cases k <;> simp)
      (by
        intro k _
        constructor <;> norm_num)).2.2.2.2.2.2⟩

/-- C15 (counterexample): with 31 reserved bits the 32-bit factor `1 << 31` is `-2^31`, so
for the 1-by-1 matrix `[[1]]` with `float` and `int8_t` the matrix `Quantize` returns the
step `-2^31 / 127.5`, not `2^31 * 1 / 127.5`. -/
theorem QuantizeMatrix_step_wraps_at_31_reserved_bits :
    (QuantizeMatrix float32 int8 (fun _ _ => 1) 1 1 31).2 = -(4294967296 / 255) ∧
      2 ^ 31 * largestAbs (fun _ _ => 1) 1 1 / ((int8.maxValue : ℚ) + 1 / 2)
        = 4294967296 / 255 ∧
      (QuantizeMatrix float32 int8 (fun _ _ => 1) 1 1 31).2
        ≠ 2 ^ 31 * largestAbs (fun _ _ => 1) 1 1 / ((int8.maxValue : ℚ) + 1 / 2) := by
  have hM : ((int8.maxValue : Int) : ℚ) = 127 := by
    norm_num [NarrowType.maxValue, int8]
  have hmm : Quantize.minMax float32 (QuantizeMatrix.asVector (fun _ _ => 1) 1) (1 * 1)
      = (1, 1) := by
    norm_num [Quantize.minMax, Quantize.minMaxHead, Quantize.minMaxTail, hminimum, hmaximum,
      rdom, QuantizeMatrix.asVector, float32, c_VectorizationWidth, List.range_succ]
  have h1 : (QuantizeMatrix float32 int8 (fun _ _ => 1) 1 1 31).2 = -(4294967296 / 255) := by
    show Quantize.qStep float32 int8 (QuantizeMatrix.asVector (fun _ _ => 1) 1) (1 * 1) 31 = _
    unfold Quantize.qStep Quantize.absMax
    rw [hmm, shiftLeftOne_31, hM]
    norm_num
  have h2 : 2 ^ 31 * largestAbs (fun _ _ => 1) 1 1 / ((int8.maxValue : ℚ) + 1 / 2)
      = 4294967296 / 255 := by
    rw [hM]
    norm_num [largestAbs, List.range_succ]
  refine ⟨h1, h2, ?_⟩
  rw [h1, h2]
  norm_num

/-- C15 (amended): for every `rows ≥ 1`, `columns ≥ 1` and `B ≤ 30`, the flattened view
`index -> (index / rows, index % rows)` maps `[0, rows * columns)` into the coordinates
`[0, columns) x [0, rows)` and every coordinate is the image of exactly one index; and for
a matrix whose entries do not exceed the maxima of the wide type and whose largest
magnitude is not below `numeric_limits<Type>::min()` and Halide's `Type::min()`, the matrix
`Quantize` returns the single step
`2^B * (largest absolute value over all entries) / (narrowTypeMax + 0.5)`. -/
theorem QuantizeMatrix_shared_step (T : WideType) (Q : NarrowType) (matrix : Int → Int → ℚ)
    (rows columns B : Nat) (hrows : 1 ≤ rows) (hcols : 1 ≤ columns) (hB : B ≤ 30)
    (hmax : ∀ x y : Nat, x < columns → y < rows →
      matrix (x : Int) (y : Int) ≤ T.limitsMax ∧ matrix (x : Int) (y : Int) ≤ T.halideMax)
    (hseed : T.limitsMin ≤ largestAbs matrix rows columns ∧
      T.halideMin ≤ largestAbs matrix rows columns) :
    (∀ index : Int, 0 ≤ index → index < (rows : Int) * (columns : Int) →
        (0 ≤ index / (rows : Int) ∧ index / (rows : Int) < (columns : Int)) ∧
          (0 ≤ index % (rows : Int) ∧ index % (rows : Int) < (rows : Int))) ∧
      (∀ x y : Nat, x < columns → y < rows →
        ∃! index : Int, (0 ≤ index ∧ index < (rows : Int) * (columns : Int)) ∧
          index / (rows : Int) = (x : Int) ∧ index % (rows : Int) = (y : Int)) ∧
      (QuantizeMatrix T Q matrix rows columns B).2
        = 2 ^ B * largestAbs matrix rows columns / ((Q.maxValue : ℚ) + 1 / 2) := by
  have hr : (0 : Int) < (rows : Int) := by exact_mod_cast hrows
  refine ⟨?_, ?_, ?_⟩
  · intro index h0 hlt
    refine ⟨⟨Int.ediv_nonneg h0 hr.le, ?_⟩, Int.emod_nonneg _ hr.ne', Int.emod_lt_of_pos _ hr⟩
    exact Int.ediv_lt_of_lt_mul hr (by rw [mul_comm]; exact hlt)
  · intro x y hx hy
    have hy0 : (0 : Int) ≤ (y : Int) := Int.natCast_nonneg y
    have hyr : (y : Int) < (rows : Int) := by exact_mod_cast hy
    refine ⟨(x : Int) * (rows : Int) + (y : Int), ⟨⟨by positivity, ?_⟩, ?_, ?_⟩, ?_⟩
    · have := flat_index_lt hx hy
      exact_mod_cast this
    · rw [add_comm, Int.add_mul_ediv_right _ _ hr.ne', Int.ediv_eq_zero_of_lt hy0 hyr, zero_add]
    · rw [add_comm, Int.add_mul_emod_self, Int.emod_eq_of_lt hy0 hyr]
    · rintro index ⟨-, hd, hm⟩
      rw [← Int.ediv_add_emod index (rows : Int), hd, hm]
      ring
  · show Quantize.qStep T Q (QuantizeMatrix.asVector matrix rows) (rows * columns) B = _
    unfold Quantize.qStep
    rw [absMax_eq T _ _ hB, max_neg_minMax_asVector T matrix hrows hcols hmax hseed]
    ring

/-- Witness of C15 (amended): `float`, `int8_t`, two reserved bits and the 5-row, 3-column
test matrix. -/
theorem QuantizeMatrix_shared_step_witness :
    (QuantizeMatrix float32 int8 testMatrix 5 3 2).2
      = 2 ^ 2 * largestAbs testMatrix 5 3 / ((int8.maxValue : ℚ) + 1 / 2) :=
  (QuantizeMatrix_shared_step float32 int8 testMatrix 5 3 2 (by decide) (by decide) (by decide)
    (by
      intro x y hx hy
      interval_cases x <;> interval_cases y <;> simp [testMatrix, ofBuffer, float32] <;>
        norm_num)
    (by
      constructor <;>
        simp [largestAbs, testMatrix, ofBuffer, float32, List.range_succ] <;> norm_num)).2.2

end CNTK
